import Mathlib

/-!
# pgsups: bulk UPDATE strategies, a shallow embedding

The Go program times several ways of running `mark = mark + 1` on a set of rows
of a PostgreSQL table.  The embedding keeps the control flow of every strategy
of `pgsups.go` (loops over the index `i`, `log.Panic` after a failed store call,
deferred `tx.Rollback()` / `stmt.Close()`), and replaces the SQL text by a small
syntax tree of the statements the program builds.

* `rids []int32` is a `List Int`, indexed with `rids[i]?` (an index outside the
  slice is the Go runtime panic, `Res.indexPanic`).
* `portion int` is an `Int`.
* The store is an external collaborator.  It is modelled by `Store.apply`: a
  statement `WHERE rid=x` adds 1 to the rows whose rid is `x`, `WHERE rid IN (l)`
  adds 1 once to each row whose rid is a member of `l`, and the join update adds
  1 once to each row whose rid occurs in the staging table.  A failing call
  (decided by the oracle `World.fails`) has no effect on the store.
* Loops are structurally recursive on a fuel argument; `Res.outOfFuel` is the
  model's own outcome and is shown never to happen with the fuel the strategies
  pass.
* The description string every strategy returns is not modelled.
* `bench` is modelled on the nanoseconds its trials measure; rationals stand for
  `float64` (`fdiv`, `meanMs`).
-/

namespace Pgsups

/-! ## Definitions -/

/-- The statements the program sends, with their identifiers resolved. -/
inductive Stmt where
  /-- The text `UPDATE testTbl SET mark=mark+1 WHERE rid=x` -/
  | updateEq (x : Int)
  /-- The text `UPDATE testTbl SET mark=mark+1 WHERE rid IN (l)` -/
  | updateIn (l : List Int)
  /-- The text `CREATE TEMP TABLE tmpx (rid INTEGER) ON COMMIT DROP` -/
  | createTmp
  /-- The text `INSERT INTO tmpx (rid) VALUES (l0), (l1), ...` -/
  | insertTmp (l : List Int)
  /-- The text `UPDATE testTbl SET mark=mark+1 FROM tmpx WHERE testTbl.rid=tmpx.rid` -/
  | updateFromTmp
  deriving DecidableEq, Repr

/-- The handle a statement is executed on. -/
inductive Via where
  /-- Call of `db.Exec`: its own implicit transaction -/
  | db
  /-- Call of `stmt.Exec` on a statement prepared with `db.Prepare` -/
  | dbStmt
  /-- Call of `tx.Exec` -/
  | tx
  /-- Call of `stmt.Exec` on a statement prepared with `tx.Prepare` -/
  | txStmt
  deriving DecidableEq, Repr

/-- One call on the store connection. -/
inductive Call where
  | begin
  | prepare (inTx : Bool)
  | exec (via : Via) (s : Stmt)
  | close
  | commit
  | rollback
  deriving DecidableEq, Repr

/-- The calls issued so far, oldest first, each with its outcome (`true`: no error). -/
abbrev Trace := List (Call × Bool)

/-- The failure oracle together with the calls issued so far. -/
structure World where
  /-- Whether the n-th call issued (counting from 0) returns an error. -/
  fails : Nat → Bool
  trace : Trace

/-- Issue one call: its outcome is read from the oracle and recorded. -/
def World.issue (w : World) (c : Call) : Bool × World :=
  let ok := !(w.fails w.trace.length)
  (ok, { w with trace := w.trace ++ [(c, ok)] })

/-- A world in which nothing has been issued and no call fails. -/
def World.quiet : World := ⟨fun _ => false, []⟩

/-- How a piece of strategy code ends. -/
inductive Res (α : Type) where
  | ok (a : α)
  /-- Go `log.Panic(err)` after a store call returned an error -/
  | logPanic
  /-- Go runtime panic: index out of range -/
  | indexPanic
  /-- The model's fuel ran out -/
  | outOfFuel
  deriving DecidableEq, Repr

/-- The loop `for i := 0; i < len(rids); i++ { exec(rids[i]) or log.Panic }` of
`updateStupid`, `updatePrepared`, `updateClassic1` and `updateTransactPrep`;
`mk` builds the call of the body. -/
def rowLoop (mk : Int → Call) (rids : List Int) : Nat → Nat → World → Res Unit × World
  | fuel, i, w =>
    if i < rids.length then
      match fuel with
      | 0 => (.outOfFuel, w)
      | fuel + 1 =>
        match rids[i]? with
        | none => (.indexPanic, w)
        | some x =>
          match w.issue (mk x) with
          | (false, w1) => (.logPanic, w1)
          | (true, w1) => rowLoop mk rids fuel (i + 1) w1
    else (.ok (), w)

/-- The argument list `rids[i+0], rids[i+1], ...` of one execution of the
fixed-arity prepared statement; `none` when an index is outside the slice. -/
def bindArgs (rids : List Int) (i : Nat) : List Nat → Option (List Int)
  | [] => some []
  | k :: ks =>
    match rids[i + k]? with
    | none => none
    | some x => (bindArgs rids i ks).map (fun rest => x :: rest)

/-- The loop `for i := 0; i+g <= len(rids); i += g { stmt.Exec(rids[i+0], ...) }`
of `updateTransactPrep4` (`g = 4`) and `updateTransactPrep8` (`g = 8`). -/
def fixedLoop (g : Nat) (rids : List Int) : Nat → Nat → World → Res Unit × World
  | fuel, i, w =>
    if i + g ≤ rids.length then
      match fuel with
      | 0 => (.outOfFuel, w)
      | fuel + 1 =>
        match bindArgs rids i (List.range g) with
        | none => (.indexPanic, w)
        | some args =>
          match w.issue (.exec .txStmt (.updateIn args)) with
          | (false, w1) => (.logPanic, w1)
          | (true, w1) => fixedLoop g rids fuel (i + g) w1
    else (.ok (), w)

/-- The inner loop `for j := 1; (j < portion) && (i < len(rids)); j++` of the
text-inlined strategies: `q` is the list of identifiers inlined so far, the
result is the index and the list when the loop is left.  The counter `j` stays
below `portion`, so `j++` does not overflow the Go `int`. -/
def innerLoop (rids : List Int) (portion : Int) :
    Nat → Int → Nat → List Int → Res (Nat × List Int)
  | fuel, j, i, q =>
    if j < portion ∧ i < rids.length then
      match fuel with
      | 0 => .outOfFuel
      | fuel + 1 =>
        match rids[i]? with
        | none => .indexPanic
        | some x => innerLoop rids portion fuel (j + 1) (i + 1) (q ++ [x])
    else .ok (i, q)

/-- One pass of the body of the outer loop, up to the statement text: the first
identifier `rids[i]`, `i++`, then the inner loop.  Gives the next index and the
identifiers inlined into the statement. -/
def buildGroup (rids : List Int) (portion : Int) (i : Nat) : Res (Nat × List Int) :=
  match rids[i]? with
  | none => .indexPanic
  | some x => innerLoop rids portion (rids.length - (i + 1)) 1 (i + 1) [x]

/-- The outer loop `i := 0; for i < len(rids) { build q; exec(q) or log.Panic }`
of `updateTransactTextN`, `updateTextN` and `updateTempN`; `mk` builds the call
from the inlined identifiers. -/
def groupLoop (mk : List Int → Call) (rids : List Int) (portion : Int) :
    Nat → Nat → World → Res Unit × World
  | fuel, i, w =>
    if i < rids.length then
      match fuel with
      | 0 => (.outOfFuel, w)
      | fuel + 1 =>
        match buildGroup rids portion i with
        | .ok (i1, q) =>
          (match w.issue (mk q) with
           | (false, w1) => (.logPanic, w1)
           | (true, w1) => groupLoop mk rids portion fuel i1 w1)
        | .logPanic => (.logPanic, w)
        | .indexPanic => (.indexPanic, w)
        | .outOfFuel => (.outOfFuel, w)
    else (.ok (), w)

/-- A piece of strategy code: it runs in a world and ends in some way. -/
abbrev Code := World → Res Unit × World

/-- The normal end of a function body. -/
def done : Code := fun w => (.ok (), w)

/-- A store call followed by `if err != nil { log.Panic(err) }`, then `k`. -/
def checked (c : Call) (k : Code) : Code := fun w =>
  match w.issue c with
  | (false, w1) => (.logPanic, w1)
  | (true, w1) => k w1

/-- The statement `defer c` followed by `body`: the call `c` is made when `body`
ends, normally or by a panic, and its error is ignored. -/
def deferred (c : Call) (body : Code) : Code := fun w =>
  match body w with
  | (r, w1) => (r, (w1.issue c).2)

/-- Sequencing: `k` runs when `a` ended normally. -/
def andThen (a : Code) (k : Code) : Code := fun w =>
  match a w with
  | (.ok (), w1) => k w1
  | (r, w1) => (r, w1)

/-- The call `db.Exec(q, rids[i])`, one row per statement, no transaction. -/
def updateStupid (rids : List Int) (_portion : Int) : Code :=
  rowLoop (fun x => .exec .db (.updateEq x)) rids rids.length 0

/-- The call `db.Prepare(q)`, then `stmt.Exec(rids[i])` per row. -/
def updatePrepared (rids : List Int) (_portion : Int) : Code :=
  checked (.prepare false) <|
  deferred .close <|
  rowLoop (fun x => .exec .dbStmt (.updateEq x)) rids rids.length 0

/-- The call `db.Exec` of a text with the identifier inlined, per row. -/
def updateClassic1 (rids : List Int) (_portion : Int) : Code :=
  rowLoop (fun x => .exec .db (.updateEq x)) rids rids.length 0

/-- One transaction, `tx.Prepare(q)`, `stmt.Exec(rids[i])` per row, commit. -/
def updateTransactPrep (rids : List Int) (_portion : Int) : Code :=
  checked .begin <|
  deferred .rollback <|
  checked (.prepare true) <|
  deferred .close <|
  andThen (rowLoop (fun x => .exec .txStmt (.updateEq x)) rids rids.length 0) <|
  checked .commit done

/-- One transaction, a prepared statement with four parameters. -/
def updateTransactPrep4 (rids : List Int) (_portion : Int) : Code :=
  checked .begin <|
  deferred .rollback <|
  checked (.prepare true) <|
  deferred .close <|
  andThen (fixedLoop 4 rids rids.length 0) <|
  checked .commit done

/-- One transaction, a prepared statement with eight parameters. -/
def updateTransactPrep8 (rids : List Int) (_portion : Int) : Code :=
  checked .begin <|
  deferred .rollback <|
  checked (.prepare true) <|
  deferred .close <|
  andThen (fixedLoop 8 rids rids.length 0) <|
  checked .commit done

/-- One transaction, `tx.Exec` of texts with up to `portion` identifiers inlined. -/
def updateTransactTextN (rids : List Int) (portion : Int) : Code :=
  checked .begin <|
  deferred .rollback <|
  andThen (groupLoop (fun q => .exec .tx (.updateIn q)) rids portion rids.length 0) <|
  checked .commit done

/-- No transaction, `db.Exec` of texts with up to `portion` identifiers inlined. -/
def updateTextN (rids : List Int) (portion : Int) : Code :=
  groupLoop (fun q => .exec .db (.updateIn q)) rids portion rids.length 0

/-- One transaction: create the staging table, fill it with grouped inserts,
run the join update, commit. -/
def updateTempN (rids : List Int) (portion : Int) : Code :=
  checked .begin <|
  deferred .rollback <|
  checked (.exec .tx .createTmp) <|
  andThen (groupLoop (fun q => .exec .tx (.insertTmp q)) rids portion rids.length 0) <|
  checked (.exec .tx .updateFromTmp) <|
  checked .commit done

/-- The strategy catalogue of `main`. -/
inductive Strategy where
  | updateStupid | updatePrepared | updateClassic1
  | updateTransactPrep | updateTransactPrep4 | updateTransactPrep8
  | updateTransactTextN | updateTextN | updateTempN
  deriving DecidableEq, Repr

/-- The code of a strategy of the catalogue. -/
def Strategy.code : Strategy → List Int → Int → Code
  | .updateStupid => Pgsups.updateStupid
  | .updatePrepared => Pgsups.updatePrepared
  | .updateClassic1 => Pgsups.updateClassic1
  | .updateTransactPrep => Pgsups.updateTransactPrep
  | .updateTransactPrep4 => Pgsups.updateTransactPrep4
  | .updateTransactPrep8 => Pgsups.updateTransactPrep8
  | .updateTransactTextN => Pgsups.updateTransactTextN
  | .updateTextN => Pgsups.updateTextN
  | .updateTempN => Pgsups.updateTempN

/-- A row of `testTbl`. -/
structure Row where
  rid : Int
  code : Int
  name : String
  mark : Int
  deriving DecidableEq, Repr

/-- The rows of `testTbl`. -/
abbrev Table := List Row

/-- The effect of `SET mark=mark+1` on the rows selected by `p`. -/
def bump (p : Int → Bool) (t : Table) : Table :=
  t.map fun r => if p r.rid then { r with mark := r.mark + 1 } else r

/-- The effect of a statement on the table and on the staging table `tmpx`
(`none`: it does not exist). -/
def Stmt.run : Stmt → Table → Option (List Int) → Table × Option (List Int)
  | .updateEq x, t, tmpx => (bump (fun r => r == x) t, tmpx)
  | .updateIn l, t, tmpx => (bump (fun r => l.contains r) t, tmpx)
  | .createTmp, t, _ => (t, some [])
  | .insertTmp l, t, tmpx => (t, tmpx.map (fun old => old ++ l))
  | .updateFromTmp, t, tmpx => (bump (fun r => (tmpx.getD []).contains r) t, tmpx)

/-- The table and staging table as seen inside an open transaction. -/
structure TxState where
  work : Table
  tmpx : Option (List Int)

/-- The store: the committed table, and the open transaction if there is one. -/
structure Store where
  main : Table
  txn : Option TxState

/-- The effect of one recorded call on the store; a failed call has none. -/
def Store.apply (s : Store) : Call × Bool → Store
  | (_, false) => s
  | (.begin, true) => { s with txn := some ⟨s.main, none⟩ }
  | (.prepare _, true) => s
  | (.close, true) => s
  | (.exec .db st, true) => { s with main := (st.run s.main none).1 }
  | (.exec .dbStmt st, true) => { s with main := (st.run s.main none).1 }
  | (.exec .tx st, true) =>
    match s.txn with
    | none => s
    | some t => { s with txn := some ⟨(st.run t.work t.tmpx).1, (st.run t.work t.tmpx).2⟩ }
  | (.exec .txStmt st, true) =>
    match s.txn with
    | none => s
    | some t => { s with txn := some ⟨(st.run t.work t.tmpx).1, (st.run t.work t.tmpx).2⟩ }
  | (.commit, true) =>
    match s.txn with
    | none => s
    | some t => ⟨t.work, none⟩
  | (.rollback, true) => { s with txn := none }

/-- The store after a trace of calls. -/
def Store.run (tr : Trace) (s : Store) : Store := tr.foldl Store.apply s

/-- The table visible once `code` has run on table `t`, with failures decided by
`fails` and no transaction open at the start. -/
def visibleAfter (code : Code) (fails : Nat → Bool) (t : Table) : Table :=
  (Store.run (code ⟨fails, []⟩).2.trace ⟨t, none⟩).main

/-- The statements passed to an `Exec` call of a trace, in order. -/
def execsOf (tr : Trace) : List Stmt :=
  tr.filterMap fun e =>
    match e with
    | (.exec _ s, _) => some s
    | _ => none

/-- The identifier lists of the `IN (...)` updates of a trace, in order. -/
def updateLists (tr : Trace) : List (List Int) :=
  (execsOf tr).filterMap fun s =>
    match s with
    | .updateIn l => some l
    | _ => none

/-- The identifier lists of the staging-table inserts of a trace, in order. -/
def insertLists (tr : Trace) : List (List Int) :=
  (execsOf tr).filterMap fun s =>
    match s with
    | .insertTmp l => some l
    | _ => none

/-- The identifier lists of the statements the grouping loop of a strategy
sends: the `VALUES` lists of the inserts for `updateTempN`, the `IN` lists of the
updates for the other strategies. -/
def groupLists (s : Strategy) (tr : Trace) : List (List Int) :=
  match s with
  | .updateTempN => insertLists tr
  | _ => updateLists tr

/-- The table `t` with `f rid` added to the mark of each row. -/
def addMarks (f : Int → Int) (t : Table) : Table :=
  t.map fun r => { r with mark := r.mark + f r.rid }

/-- Issue the calls of a list in order, each one checked: stop with `log.Panic`
at the first that fails. -/
def issueAll : List Call → Code
  | [] => done
  | c :: cs => checked c (issueAll cs)

/-- The number of identifiers a statement of the grouping loop takes when that
many are left: `portion`, and one when `portion` is below one. -/
def groupSize (portion : Int) : Nat := max 1 portion.toNat

/-- Consecutive pieces of `n` elements of a list, the last one possibly shorter;
the first argument bounds the number of pieces. -/
def chunks (n : Nat) : Nat → List Int → List (List Int)
  | 0, _ => []
  | fuel + 1, l => if l = [] then [] else l.take n :: chunks n fuel (l.drop n)

/-- The argument lists of the fixed-arity loop started at index `i`. -/
def fixedGroups (g : Nat) (rids : List Int) (i : Nat) : List (List Int) :=
  (List.range ((rids.length - i) / g)).map (fun k => (rids.drop (i + k * g)).take g)

/-- A call recorded as successful. -/
def okCall (c : Call) : Call × Bool := (c, true)

/-- The body of a strategy that runs in one transaction, in the order of the
source: `Begin`, `defer Rollback`, for the prepared variants `Prepare` and
`defer Close`, the statements of `body`, `Commit`. -/
def txScript (prep : Bool) (body : List Call) : Code :=
  checked .begin <|
  deferred .rollback <|
  if prep then
    checked (.prepare true) <| deferred .close <| issueAll (body ++ [.commit])
  else
    issueAll (body ++ [.commit])

/-- The checked calls a transaction script makes between `Begin` and `Commit`. -/
def txPlan (prep : Bool) (body : List Call) : List Call :=
  if prep then .prepare true :: body else body

/-- The forms a run of a transaction script can take: `Begin` fails; a call
between `Begin` and `Commit` fails; `Commit` fails; nothing fails.  The list
`cl` holds the deferred `Close`, when there is one. -/
def TxShape (stmts : List Call) (r : Res Unit) (tr : Trace) : Prop :=
  (r = .logPanic ∧ tr = [(.begin, false)]) ∨
  (r = .logPanic ∧ ∃ pre c post cl b, stmts = pre ++ c :: post ∧ (∀ e ∈ cl, e.1 = Call.close) ∧
      tr = (.begin, true) :: (pre.map okCall ++ (c, false) :: (cl ++ [(.rollback, b)]))) ∨
  (r = .logPanic ∧ ∃ cl b, (∀ e ∈ cl, e.1 = Call.close) ∧
      tr = (.begin, true) :: (stmts.map okCall ++ (.commit, false) :: (cl ++ [(.rollback, b)]))) ∨
  (r = .ok () ∧ ∃ cl b, (∀ e ∈ cl, e.1 = Call.close) ∧
      tr = (.begin, true) :: (stmts.map okCall ++ (.commit, true) :: (cl ++ [(.rollback, b)])))

/-- The identifier lists of the statements of the grouping loop. -/
def textGroups (rids : List Int) (portion : Int) : List (List Int) :=
  chunks (groupSize portion) rids.length rids

/-- Calls that act inside the open transaction only. -/
def Call.inTx : Call → Bool
  | .prepare _ => true
  | .exec .tx _ => true
  | .exec .txStmt _ => true
  | _ => false

/-- Among the first `cnt` consecutive pieces of `n` positions of the workload
(the k-th piece holds positions `k*n .. k*n+n-1`), the number of pieces in which
the identifier `r` occurs. -/
def piecesWith (n cnt : Nat) (rids : List Int) (r : Int) : Nat :=
  (List.range cnt).countP (fun k => ((rids.drop (k * n)).take n).contains r)

/-- The number added to the mark of the row `r` by a successful run: the number
of issued update statements that select the row. -/
def marksAdded : Strategy → List Int → Int → Int → Int
  | .updateStupid, rids, _, r => rids.count r
  | .updatePrepared, rids, _, r => rids.count r
  | .updateClassic1, rids, _, r => rids.count r
  | .updateTransactPrep, rids, _, r => rids.count r
  | .updateTransactPrep4, rids, _, r => piecesWith 4 (rids.length / 4) rids r
  | .updateTransactPrep8, rids, _, r => piecesWith 8 (rids.length / 8) rids r
  | .updateTransactTextN, rids, portion, r =>
    piecesWith (groupSize portion)
      ((rids.length + groupSize portion - 1) / groupSize portion) rids r
  | .updateTextN, rids, portion, r =>
    piecesWith (groupSize portion)
      ((rids.length + groupSize portion - 1) / groupSize portion) rids r
  | .updateTempN, rids, _, r => if rids.contains r then 1 else 0

/-- The strategies that send one statement per identifier. -/
def Strategy.perRow : Strategy → Bool
  | .updateStupid | .updatePrepared | .updateClassic1 | .updateTransactPrep => true
  | _ => false

/-- The strategies that open an explicit transaction. -/
def Strategy.usesTx : Strategy → Bool
  | .updateTransactPrep | .updateTransactPrep4 | .updateTransactPrep8
  | .updateTransactTextN | .updateTempN => true
  | _ => false

/-- The calls a transaction strategy makes between `Begin` and `Commit` when
nothing fails (empty for the strategies without a transaction). -/
def txStmts : Strategy → List Int → Int → List Call
  | .updateTransactPrep, rids, _ =>
    txPlan true (rids.map (fun x => .exec .txStmt (.updateEq x)))
  | .updateTransactPrep4, rids, _ =>
    txPlan true ((fixedGroups 4 rids 0).map (fun a => .exec .txStmt (.updateIn a)))
  | .updateTransactPrep8, rids, _ =>
    txPlan true ((fixedGroups 8 rids 0).map (fun a => .exec .txStmt (.updateIn a)))
  | .updateTransactTextN, rids, portion =>
    txPlan false ((textGroups rids portion).map (fun q => .exec .tx (.updateIn q)))
  | .updateTempN, rids, portion =>
    txPlan false (.exec .tx .createTmp ::
      ((textGroups rids portion).map (fun q => .exec .tx (.insertTmp q))
        ++ [.exec .tx .updateFromTmp]))
  | _, _, _ => []

/-- The statements a strategy executes when no checked call fails. -/
def stmtsOf : Strategy → List Int → Int → List Stmt
  | .updateStupid, rids, _ => rids.map .updateEq
  | .updatePrepared, rids, _ => rids.map .updateEq
  | .updateClassic1, rids, _ => rids.map .updateEq
  | .updateTransactPrep, rids, _ => rids.map .updateEq
  | .updateTransactPrep4, rids, _ => (fixedGroups 4 rids 0).map .updateIn
  | .updateTransactPrep8, rids, _ => (fixedGroups 8 rids 0).map .updateIn
  | .updateTransactTextN, rids, portion => (textGroups rids portion).map .updateIn
  | .updateTextN, rids, portion => (textGroups rids portion).map .updateIn
  | .updateTempN, rids, portion =>
    .createTmp :: ((textGroups rids portion).map .insertTmp ++ [.updateFromTmp])

/-- The number of trials averaged by `bench`. -/
def testCount : Nat := 20

/-- The value of `time.Millisecond`, in nanoseconds. -/
def millisecond : Nat := 1000000

/-- The quotient of two `float64` values that are rationals: `none` stands for
the results that are not numbers of the model (`NaN`, `+Inf`), which Go gives
when the divisor is zero.  Rounding is not modelled. -/
def fdiv (a b : ℚ) : Option ℚ := if b = 0 then none else some (a / b)

/-- The line `bench` prints: the mean in milliseconds and the ratio `k`. -/
structure Report where
  avg : ℚ
  k : Option ℚ
  deriving DecidableEq

/-- The global `dur1`, with a count of the executions of `dur1 = avg`. -/
structure BenchState where
  dur1 : ℚ
  writes : Nat
  deriving DecidableEq

/-- The state at process start: `dur1` is zero and has not been assigned. -/
def BenchState.init : BenchState := ⟨0, 0⟩

/-- The mean `float64(dsum) / testCount / float64(time.Millisecond)` of one call
of `bench`, where `durs` are the nanoseconds measured by its trials and `dsum`
their sum.  Rationals stand for `float64`; the sum stays far below the range of
`int64`. -/
def meanMs (durs : List Nat) : ℚ :=
  ((durs.foldl (fun dsum d => dsum + d) 0 : Nat) : ℚ) / testCount / millisecond

/-- One call of `bench`: `if dur1 == 0 { dur1 = avg }`, then `k := dur1 / avg`. -/
def bench (durs : List Nat) (st : BenchState) : BenchState × Report :=
  let avg := meanMs durs
  let st1 : BenchState := if st.dur1 = 0 then { dur1 := avg, writes := st.writes + 1 } else st
  (st1, { avg := avg, k := fdiv st1.dur1 avg })

/-- A sequence of calls of `bench`: the final state and the reports in order. -/
def benchAll : List (List Nat) → BenchState → BenchState × List Report
  | [], st => (st, [])
  | d :: rest, st =>
    ((benchAll rest (bench d st).1).1, (bench d st).2 :: (benchAll rest (bench d st).1).2)

/-- Where a trace stands with respect to its transaction. -/
inductive Phase where
  /-- Nothing issued yet -/
  | idle
  /-- After a successful `Begin`, before `Commit` or `Rollback` -/
  | inside
  /-- After `Commit` or `Rollback`, or after a failed `Begin` -/
  | over
  deriving DecidableEq, Repr

/-- The calls allowed in each phase: `Begin` only as the first call; `Exec` and
`Prepare` only inside the transaction; `Commit` only inside; `Close` and
`Rollback` inside or after. -/
def Phase.step : Phase → Call × Bool → Option Phase
  | .idle, (.begin, true) => some .inside
  | .idle, (.begin, false) => some .over
  | .inside, (.exec _ _, _) => some .inside
  | .inside, (.prepare _, _) => some .inside
  | .inside, (.close, _) => some .inside
  | .inside, (.commit, _) => some .over
  | .inside, (.rollback, _) => some .over
  | .over, (.close, _) => some .over
  | .over, (.rollback, _) => some .over
  | _, _ => none

/-- Run the protocol over a trace; `none` when a call is not allowed. -/
def Phase.scan : Phase → Trace → Option Phase
  | p, [] => some p
  | p, e :: rest =>
    match p.step e with
    | none => none
    | some p1 => Phase.scan p1 rest

/-- The calls whose error the strategies check (all but the deferred ones). -/
def Call.isChecked : Call → Bool
  | .close => false
  | .rollback => false
  | _ => true

/-- A small table used in the examples: rows 0, 1, 2 with mark 0. -/
def sampleTable : Table :=
  [⟨0, 100, "a", 0⟩, ⟨1, 101, "b", 0⟩, ⟨2, 102, "c", 0⟩]

/-! ## Lemmas and claims -/

theorem drop_cons_of_lt (rids : List Int) (i : Nat) (h : i < rids.length) :
    rids.drop i = rids[i] :: rids.drop (i + 1) := by
  exact List.drop_eq_getElem_cons h

theorem rowLoop_eq_issueAll (mk : Int → Call) (rids : List Int) :
    ∀ (fuel i : Nat) (w : World), rids.length - i ≤ fuel →
      rowLoop mk rids fuel i w = issueAll ((rids.drop i).map mk) w := by
  intro fuel
  induction fuel with
  | zero =>
    intro i w h
    have hi : ¬ i < rids.length := by omega
    have hd : rids.drop i = [] := List.drop_eq_nil_of_le (by omega)
    simp [rowLoop, hi, hd, issueAll, done]
  | succ fuel ih =>
    intro i w h
    by_cases hi : i < rids.length
    · rw [drop_cons_of_lt rids i hi]
      simp only [rowLoop, hi, if_true, List.getElem?_eq_getElem hi, List.map_cons, issueAll,
        checked]
      cases hw : w.issue (mk rids[i]) with
      | mk b w1 =>
        cases b with
        | false => rfl
        | true => exact ih (i + 1) w1 (by omega)
    · have hd : rids.drop i = [] := List.drop_eq_nil_of_le (by omega)
      simp [rowLoop, hi, hd, issueAll, done]

theorem innerLoop_eq (rids : List Int) (portion : Int) :
    ∀ (fuel : Nat) (j : Int) (i : Nat) (q : List Int), rids.length - i ≤ fuel →
      innerLoop rids portion fuel j i q
        = .ok (i + min (portion - j).toNat (rids.length - i),
               q ++ (rids.drop i).take (min (portion - j).toNat (rids.length - i))) := by
  intro fuel
  induction fuel with
  | zero =>
    intro j i q h
    have hi : ¬ i < rids.length := by omega
    have h0 : rids.length - i = 0 := by omega
    simp [innerLoop, hi, h0]
  | succ fuel ih =>
    intro j i q h
    by_cases hc : j < portion ∧ i < rids.length
    · obtain ⟨hj, hi⟩ := hc
      have hm : min (portion - j).toNat (rids.length - i)
          = min (portion - (j + 1)).toNat (rids.length - (i + 1)) + 1 := by omega
      simp only [innerLoop, hj, hi, and_self, if_true, List.getElem?_eq_getElem hi]
      rw [ih (j + 1) (i + 1) (q ++ [rids[i]]) (by omega), hm, drop_cons_of_lt rids i hi,
        List.take_succ_cons, List.append_assoc, List.singleton_append, Nat.add_assoc,
        Nat.add_comm 1]
    · have hm : min (portion - j).toNat (rids.length - i) = 0 := by omega
      simp [innerLoop, hc, hm]

theorem buildGroup_eq (rids : List Int) (portion : Int) (i : Nat) (hi : i < rids.length) :
    buildGroup rids portion i
      = .ok (min (i + groupSize portion) rids.length, (rids.drop i).take (groupSize portion)) := by
  have hm : min (groupSize portion) (rids.length - i)
      = min (portion - 1).toNat (rids.length - (i + 1)) + 1 := by
    unfold groupSize; omega
  have ht : (rids.drop i).take (groupSize portion)
      = (rids.drop i).take (min (groupSize portion) (rids.length - i)) := by
    rw [List.take_eq_take]
    simp
  simp only [buildGroup, List.getElem?_eq_getElem hi]
  have hidx : i + 1 + min (portion - 1).toNat (rids.length - (i + 1))
      = min (i + groupSize portion) rids.length := by
    unfold groupSize; omega
  rw [innerLoop_eq rids portion _ 1 (i + 1) [rids[i]] (le_refl _), ht, hm,
    drop_cons_of_lt rids i hi, List.take_succ_cons, hidx, List.singleton_append]

theorem groupLoop_eq_issueAll (mk : List Int → Call) (rids : List Int) (portion : Int) :
    ∀ (fuel i : Nat) (w : World), rids.length - i ≤ fuel →
      groupLoop mk rids portion fuel i w
        = issueAll ((chunks (groupSize portion) fuel (rids.drop i)).map mk) w := by
  intro fuel
  induction fuel with
  | zero =>
    intro i w h
    have hi : ¬ i < rids.length := by omega
    simp [groupLoop, hi, chunks, issueAll, done]
  | succ fuel ih =>
    intro i w h
    by_cases hi : i < rids.length
    · have hne : rids.drop i ≠ [] := by
        intro h0
        have := congrArg List.length h0
        simp at this
        omega
      have hg : 1 ≤ groupSize portion := by unfold groupSize; omega
      have hd : rids.drop (min (i + groupSize portion) rids.length)
          = (rids.drop i).drop (groupSize portion) := by
        rw [List.drop_drop]
        by_cases hle : i + groupSize portion ≤ rids.length
        · rw [Nat.min_eq_left hle, Nat.add_comm]
        · rw [Nat.min_eq_right (by omega), List.drop_eq_nil_of_le (le_refl _),
            List.drop_eq_nil_of_le (by omega)]
      simp only [groupLoop, hi, if_true, buildGroup_eq rids portion i hi, chunks, hne, if_false,
        List.map_cons, issueAll, checked]
      cases hw : w.issue (mk ((rids.drop i).take (groupSize portion))) with
      | mk b w1 =>
        cases b with
        | false => rfl
        | true =>
          simp only []
          rw [ih _ w1 (by omega), hd]
    · have hd : rids.drop i = [] := List.drop_eq_nil_of_le (by omega)
      simp [groupLoop, hi, hd, chunks, issueAll, done]

theorem groupSize_pos (portion : Int) : 0 < groupSize portion := by
  unfold groupSize; omega

theorem groupSize_of_pos (portion : Int) (h : 1 ≤ portion) :
    groupSize portion = portion.toNat := by
  unfold groupSize; omega

theorem groupSize_of_le_one (portion : Int) (h : portion ≤ 1) : groupSize portion = 1 := by
  unfold groupSize; omega

theorem ceilDiv_step (n len : Nat) (hn : 0 < n) (hl : 0 < len) :
    (len + n - 1) / n = (len - n + n - 1) / n + 1 := by
  by_cases h : n ≤ len
  · have : len + n - 1 = (len - n + n - 1) + n := by omega
    rw [this, Nat.add_div_right _ hn]
  · have h1 : (len + n - 1) / n = 1 := by
      apply Nat.div_eq_of_lt_le <;> omega
    have h2 : (len - n + n - 1) / n = 0 := by
      apply Nat.div_eq_of_lt; omega
    omega

theorem chunks_flatten (n : Nat) (hn : 0 < n) :
    ∀ (fuel : Nat) (l : List Int), l.length ≤ fuel → (chunks n fuel l).flatten = l := by
  intro fuel
  induction fuel with
  | zero =>
    intro l h
    have : l = [] := List.length_eq_zero.mp (by omega)
    simp [chunks, this]
  | succ fuel ih =>
    intro l h
    by_cases hl : l = []
    · simp [chunks, hl]
    · have hlen : 0 < l.length := List.length_pos.mpr hl
      simp only [chunks, hl, if_false, List.flatten_cons]
      rw [ih (l.drop n) (by simp; omega), List.take_append_drop]

theorem chunks_eq_map (n : Nat) (hn : 0 < n) :
    ∀ (fuel : Nat) (l : List Int), l.length ≤ fuel →
      chunks n fuel l
        = (List.range ((l.length + n - 1) / n)).map (fun k => (l.drop (k * n)).take n) := by
  intro fuel
  induction fuel with
  | zero =>
    intro l h
    have hl : l = [] := List.length_eq_zero.mp (by omega)
    have h0 : (n - 1) / n = 0 := Nat.div_eq_of_lt (by omega)
    simp [chunks, hl, h0]
  | succ fuel ih =>
    intro l h
    by_cases hl : l = []
    · have h0 : (n - 1) / n = 0 := Nat.div_eq_of_lt (by omega)
      simp [chunks, hl, h0]
    · have hlen : 0 < l.length := List.length_pos.mpr hl
      simp only [chunks, hl, if_false]
      rw [ih (l.drop n) (by simp; omega), ceilDiv_step n l.length hn hlen,
        List.range_succ_eq_map, List.map_cons, List.map_map, List.length_drop]
      congr 1
      · simp
      · apply List.map_congr_left
        intro k _
        simp only [Function.comp, Nat.succ_eq_add_one, List.drop_drop]
        congr 2
        rw [Nat.add_mul]; omega

theorem bindArgs_range' (rids : List Int) (i : Nat) :
    ∀ (g s : Nat), i + s + g ≤ rids.length →
      bindArgs rids i (List.range' s g) = some ((rids.drop (i + s)).take g) := by
  intro g
  induction g with
  | zero => intro s _; simp [bindArgs]
  | succ g ih =>
    intro s h
    have hlt : i + s < rids.length := by omega
    rw [List.range'_succ, bindArgs, List.getElem?_eq_getElem hlt]
    simp only []
    rw [ih (s + 1) (by omega), drop_cons_of_lt rids (i + s) hlt, List.take_succ_cons]
    rfl

theorem bindArgs_range (rids : List Int) (i g : Nat) (h : i + g ≤ rids.length) :
    bindArgs rids i (List.range g) = some ((rids.drop i).take g) := by
  rw [List.range_eq_range', bindArgs_range' rids i g 0 (by omega)]
  rfl

theorem fixedGroups_step (g : Nat) (hg : 0 < g) (rids : List Int) (i : Nat)
    (h : i + g ≤ rids.length) :
    fixedGroups g rids i = (rids.drop i).take g :: fixedGroups g rids (i + g) := by
  have hd : (rids.length - i) / g = (rids.length - (i + g)) / g + 1 := by
    have : rids.length - i = (rids.length - (i + g)) + g := by omega
    rw [this, Nat.add_div_right _ hg]
  unfold fixedGroups
  rw [hd, List.range_succ_eq_map, List.map_cons, List.map_map]
  congr 1
  · simp
  · apply List.map_congr_left
    intro k _
    simp only [Function.comp, Nat.succ_eq_add_one]
    congr 2
    rw [Nat.add_mul]; omega

theorem fixedGroups_done (g : Nat) (rids : List Int) (i : Nat) (h : ¬ i + g ≤ rids.length) :
    fixedGroups g rids i = [] := by
  have hd : (rids.length - i) / g = 0 := by
    rcases Nat.eq_zero_or_pos g with h0 | h0
    · simp [h0]
    · exact Nat.div_eq_of_lt (by omega)
  simp [fixedGroups, hd]

theorem fixedLoop_eq_issueAll (g : Nat) (hg : 0 < g) (rids : List Int) :
    ∀ (fuel i : Nat) (w : World), rids.length - i ≤ fuel →
      fixedLoop g rids fuel i w
        = issueAll ((fixedGroups g rids i).map (fun a => .exec .txStmt (.updateIn a))) w := by
  intro fuel
  induction fuel with
  | zero =>
    intro i w h
    have hi : ¬ i + g ≤ rids.length := by omega
    simp [fixedLoop, hi, fixedGroups_done g rids i hi, issueAll, done]
  | succ fuel ih =>
    intro i w h
    by_cases hi : i + g ≤ rids.length
    · simp only [fixedLoop, hi, if_true, bindArgs_range rids i g hi,
        fixedGroups_step g hg rids i hi, List.map_cons, issueAll, checked]
      cases hw : w.issue (.exec .txStmt (.updateIn ((rids.drop i).take g))) with
      | mk b w1 =>
        cases b with
        | false => rfl
        | true => exact ih (i + g) w1 (by omega)
    · simp [fixedLoop, hi, fixedGroups_done g rids i hi, issueAll, done]

theorem issueAll_append (a b : List Call) :
    issueAll (a ++ b) = andThen (issueAll a) (issueAll b) := by
  induction a with
  | nil => rfl
  | cons c cs ih =>
    funext w
    simp only [List.cons_append, issueAll, checked, andThen]
    cases hw : w.issue c with
    | mk ok w1 =>
      cases ok with
      | false => rfl
      | true =>
        have ih1 := congrFun ih w1
        simp only [andThen] at ih1
        exact ih1

theorem issueAll_shape (cs : List Call) : ∀ w : World,
    issueAll cs w = (.ok (), ⟨w.fails, w.trace ++ cs.map okCall⟩) ∨
    ∃ pre c post, cs = pre ++ c :: post ∧
      issueAll cs w = (.logPanic, ⟨w.fails, w.trace ++ (pre.map okCall ++ [(c, false)])⟩) := by
  induction cs with
  | nil => intro w; left; simp [issueAll, done]
  | cons c cs ih =>
    intro w
    cases hf : w.fails w.trace.length with
    | true =>
      right
      refine ⟨[], c, cs, rfl, ?_⟩
      simp [issueAll, checked, World.issue, hf]
    | false =>
      have hstep : issueAll (c :: cs) w = issueAll cs ⟨w.fails, w.trace ++ [(c, true)]⟩ := by
        simp [issueAll, checked, World.issue, hf]
      rcases ih ⟨w.fails, w.trace ++ [(c, true)]⟩ with h | ⟨pre, d, post, hcs, h⟩
      · left
        rw [hstep, h]
        simp [okCall]
      · right
        refine ⟨c :: pre, d, post, by simp [hcs], ?_⟩
        rw [hstep, h]
        simp [okCall]

theorem split_last (stmts pre post : List Call) (c x : Call)
    (h : stmts ++ [x] = pre ++ c :: post) :
    (post = [] ∧ c = x ∧ pre = stmts) ∨ ∃ post1, post = post1 ++ [x] ∧ stmts = pre ++ c :: post1 := by
  rcases List.eq_nil_or_concat post with hp | ⟨post1, y, hp⟩
  · left
    subst hp
    have h2 : stmts ++ [x] = pre ++ [c] := h
    have := List.append_inj' h2 rfl
    simp at this
    exact ⟨rfl, this.2.symm, this.1.symm⟩
  · right
    subst hp
    have h2 : stmts ++ [x] = (pre ++ c :: post1) ++ [y] := by simp [h]
    have := List.append_inj' h2 rfl
    simp at this
    refine ⟨post1, by rw [this.2, List.concat_eq_append], by simpa using this.1⟩

/-- The run of the calls between `Begin` and the deferred `Rollback`, in a world
where `Begin` has just succeeded. -/
theorem issueAll_commit_shape (stmts : List Call) (w : World) :
    (∃ pre c post, stmts = pre ++ c :: post ∧ issueAll (stmts ++ [.commit]) w
        = (.logPanic, ⟨w.fails, w.trace ++ (pre.map okCall ++ [(c, false)])⟩)) ∨
    (issueAll (stmts ++ [.commit]) w
        = (.logPanic, ⟨w.fails, w.trace ++ (stmts.map okCall ++ [(.commit, false)])⟩)) ∨
    (issueAll (stmts ++ [.commit]) w
        = (.ok (), ⟨w.fails, w.trace ++ (stmts.map okCall ++ [(.commit, true)])⟩)) := by
  rcases issueAll_shape (stmts ++ [.commit]) w with h | ⟨pre, c, post, hcs, h⟩
  · right; right
    rw [h]; simp [okCall]
  · rcases split_last stmts pre post c .commit hcs with ⟨_, hc, hpre⟩ | ⟨post1, _, hst⟩
    · right; left
      rw [h, hc, hpre]
    · left
      exact ⟨pre, c, post1, hst, h⟩

theorem checked_eq (c : Call) (k : Code) (w : World) :
    checked c k w = if w.fails w.trace.length then (.logPanic, ⟨w.fails, w.trace ++ [(c, false)]⟩)
      else k ⟨w.fails, w.trace ++ [(c, true)]⟩ := by
  cases hf : w.fails w.trace.length <;> simp [checked, World.issue, hf]

theorem deferred_eq (c : Call) (body : Code) (w : World) :
    deferred c body w = ((body w).1, ⟨(body w).2.fails,
      (body w).2.trace ++ [(c, !((body w).2.fails (body w).2.trace.length))]⟩) := by
  simp [deferred, World.issue]

theorem deferred_ex (c : Call) (body : Code) (w : World) :
    ∃ b, deferred c body w = ((body w).1, ⟨(body w).2.fails, (body w).2.trace ++ [(c, b)]⟩) :=
  ⟨_, deferred_eq c body w⟩

theorem txScript_shape (prep : Bool) (body : List Call) (fails : Nat → Bool) :
    TxShape (txPlan prep body) (txScript prep body ⟨fails, []⟩).1
      (txScript prep body ⟨fails, []⟩).2.trace := by
  unfold txScript
  rw [checked_eq]
  cases h0 : fails 0 with
  | true => left; simp [h0]
  | false =>
    right
    simp only [h0, List.length_nil, Bool.false_eq_true, if_false, List.nil_append]
    cases prep with
    | false =>
      simp only [Bool.false_eq_true, if_false, txPlan]
      obtain ⟨b, hb⟩ := deferred_ex .rollback (issueAll (body ++ [.commit]))
        ⟨fails, [(.begin, true)]⟩
      rw [hb]
      rcases issueAll_commit_shape body ⟨fails, [(.begin, true)]⟩
        with ⟨pre, c, post, hst, h⟩ | h | h
      · left
        rw [h]
        exact ⟨rfl, pre, c, post, [], b, hst, by simp, by simp⟩
      · right; left
        rw [h]
        exact ⟨rfl, [], b, by simp, by simp⟩
      · right; right
        rw [h]
        exact ⟨rfl, [], b, by simp, by simp⟩
    | true =>
      simp only [if_true, txPlan]
      obtain ⟨b, hb⟩ := deferred_ex .rollback
        (checked (.prepare true) (deferred .close (issueAll (body ++ [.commit]))))
        ⟨fails, [(.begin, true)]⟩
      rw [hb, checked_eq]
      cases h1 : fails 1 with
      | true =>
        left
        simp only [List.length_singleton, h1, if_true]
        exact ⟨trivial, [], _, body, [], b, rfl, by simp, by simp [okCall]⟩
      | false =>
        simp only [List.length_singleton, h1, Bool.false_eq_true, if_false, List.singleton_append]
        obtain ⟨b2, hb2⟩ := deferred_ex .close (issueAll (body ++ [.commit]))
          ⟨fails, [(.begin, true), (.prepare true, true)]⟩
        rw [hb2]
        rcases issueAll_commit_shape body ⟨fails, [(.begin, true), (.prepare true, true)]⟩
          with ⟨pre, c, post, hst, h⟩ | h | h
        · left
          rw [h]
          exact ⟨rfl, .prepare true :: pre, c, post, [(.close, b2)], b, by simp [hst], by simp,
            by simp [okCall]⟩
        · right; left
          rw [h]
          exact ⟨rfl, [(.close, b2)], b, by simp, by simp [okCall]⟩
        · right; right
          rw [h]
          exact ⟨rfl, [(.close, b2)], b, by simp, by simp [okCall]⟩

theorem rowLoop_full (mk : Int → Call) (rids : List Int) :
    rowLoop mk rids rids.length 0 = issueAll (rids.map mk) := by
  funext w
  rw [rowLoop_eq_issueAll mk rids rids.length 0 w (by omega), List.drop_zero]

theorem groupLoop_full (mk : List Int → Call) (rids : List Int) (portion : Int) :
    groupLoop mk rids portion rids.length 0 = issueAll ((textGroups rids portion).map mk) := by
  funext w
  rw [groupLoop_eq_issueAll mk rids portion rids.length 0 w (by omega), List.drop_zero]
  rfl

theorem fixedLoop_full (g : Nat) (hg : 0 < g) (rids : List Int) :
    fixedLoop g rids rids.length 0
      = issueAll ((fixedGroups g rids 0).map (fun a => .exec .txStmt (.updateIn a))) := by
  funext w
  rw [fixedLoop_eq_issueAll g hg rids rids.length 0 w (by omega)]

theorem andThen_commit (cs : List Call) :
    andThen (issueAll cs) (checked .commit done) = issueAll (cs ++ [.commit]) := by
  rw [issueAll_append]; rfl

theorem updateStupid_eq (rids : List Int) (portion : Int) :
    updateStupid rids portion = issueAll (rids.map (fun x => .exec .db (.updateEq x))) :=
  rowLoop_full _ rids

theorem updateClassic1_eq (rids : List Int) (portion : Int) :
    updateClassic1 rids portion = issueAll (rids.map (fun x => .exec .db (.updateEq x))) :=
  rowLoop_full _ rids

theorem updatePrepared_eq (rids : List Int) (portion : Int) :
    updatePrepared rids portion
      = checked (.prepare false)
          (deferred .close (issueAll (rids.map (fun x => .exec .dbStmt (.updateEq x))))) := by
  unfold updatePrepared
  rw [rowLoop_full]

theorem updateTextN_eq (rids : List Int) (portion : Int) :
    updateTextN rids portion
      = issueAll ((textGroups rids portion).map (fun q => .exec .db (.updateIn q))) :=
  groupLoop_full _ rids portion

theorem updateTransactPrep_eq (rids : List Int) (portion : Int) :
    updateTransactPrep rids portion
      = txScript true (rids.map (fun x => .exec .txStmt (.updateEq x))) := by
  unfold updateTransactPrep txScript
  rw [rowLoop_full, andThen_commit]
  rfl

theorem updateTransactPrep4_eq (rids : List Int) (portion : Int) :
    updateTransactPrep4 rids portion
      = txScript true ((fixedGroups 4 rids 0).map (fun a => .exec .txStmt (.updateIn a))) := by
  unfold updateTransactPrep4 txScript
  rw [fixedLoop_full 4 (by decide), andThen_commit]
  rfl

theorem updateTransactPrep8_eq (rids : List Int) (portion : Int) :
    updateTransactPrep8 rids portion
      = txScript true ((fixedGroups 8 rids 0).map (fun a => .exec .txStmt (.updateIn a))) := by
  unfold updateTransactPrep8 txScript
  rw [fixedLoop_full 8 (by decide), andThen_commit]
  rfl

theorem updateTransactTextN_eq (rids : List Int) (portion : Int) :
    updateTransactTextN rids portion
      = txScript false ((textGroups rids portion).map (fun q => .exec .tx (.updateIn q))) := by
  unfold updateTransactTextN txScript
  rw [groupLoop_full, andThen_commit]
  rfl

theorem updateTempN_eq (rids : List Int) (portion : Int) :
    updateTempN rids portion
      = txScript false (.exec .tx .createTmp ::
          ((textGroups rids portion).map (fun q => .exec .tx (.insertTmp q))
            ++ [.exec .tx .updateFromTmp])) := by
  unfold updateTempN txScript
  rw [groupLoop_full]
  have h : checked (.exec .tx .createTmp)
      (andThen (issueAll ((textGroups rids portion).map (fun q => .exec .tx (.insertTmp q))))
        (checked (.exec .tx .updateFromTmp) (checked .commit done)))
      = issueAll ((.exec .tx .createTmp ::
          ((textGroups rids portion).map (fun q => .exec .tx (.insertTmp q))
            ++ [.exec .tx .updateFromTmp])) ++ [.commit]) := by
    rw [List.cons_append, List.append_assoc, issueAll, issueAll_append]
    rfl
  rw [h]
  rfl

theorem addMarks_zero (t : Table) : addMarks (fun _ => 0) t = t := by
  unfold addMarks
  induction t with
  | nil => rfl
  | cons r rest ih => simp [ih]

theorem addMarks_bump (p : Int → Bool) (f : Int → Int) (t : Table) :
    addMarks f (bump p t) = addMarks (fun r => f r + if p r then 1 else 0) t := by
  unfold addMarks bump
  rw [List.map_map]
  apply List.map_congr_left
  intro r _
  by_cases h : p r.rid <;> simp [Function.comp, h, add_comm, add_left_comm]

theorem foldl_bump {α : Type} (p : α → Int → Bool) (l : List α) :
    ∀ t : Table, l.foldl (fun t a => bump (p a) t) t
      = addMarks (fun r => ((l.countP (fun a => p a r) : Nat) : Int)) t := by
  induction l with
  | nil => intro t; simp [addMarks_zero]
  | cons a rest ih =>
    intro t
    rw [List.foldl_cons, ih, addMarks_bump]
    congr 1
    funext r
    by_cases h : p a r <;> simp [List.countP_cons, h]

theorem Store.run_append (a b : Trace) (s : Store) :
    Store.run (a ++ b) s = Store.run b (Store.run a s) := by
  simp [Store.run, List.foldl_append]

theorem Store.run_cons (e : Call × Bool) (rest : Trace) (s : Store) :
    Store.run (e :: rest) s = Store.run rest (s.apply e) := rfl

theorem Store.run_nil (s : Store) : Store.run [] s = s := rfl

/-- Successful updates inside the transaction add up on the working table. -/
theorem run_tx_updates {α : Type} (mk : α → Call) (p : α → Int → Bool)
    (hmk : ∀ a m wk tm, Store.apply ⟨m, some ⟨wk, tm⟩⟩ (mk a, true)
      = ⟨m, some ⟨bump (p a) wk, tm⟩⟩) (l : List α) :
    ∀ (m wk : Table) (tm : Option (List Int)),
      Store.run ((l.map mk).map okCall) ⟨m, some ⟨wk, tm⟩⟩
        = ⟨m, some ⟨addMarks (fun r => ((l.countP (fun a => p a r) : Nat) : Int)) wk, tm⟩⟩ := by
  intro m wk tm
  rw [← foldl_bump p l wk]
  induction l generalizing wk with
  | nil => rfl
  | cons a rest ih =>
    simp only [List.map_cons, okCall, Store.run_cons, hmk, List.foldl_cons]
    exact ih (bump (p a) wk)

/-- Successful updates outside a transaction add up on the committed table. -/
theorem run_db_updates {α : Type} (mk : α → Call) (p : α → Int → Bool)
    (hmk : ∀ a m tx, Store.apply ⟨m, tx⟩ (mk a, true) = ⟨bump (p a) m, tx⟩) (l : List α) :
    ∀ (m : Table) (tx : Option TxState),
      Store.run ((l.map mk).map okCall) ⟨m, tx⟩
        = ⟨addMarks (fun r => ((l.countP (fun a => p a r) : Nat) : Int)) m, tx⟩ := by
  intro m tx
  rw [← foldl_bump p l m]
  induction l generalizing m with
  | nil => rfl
  | cons a rest ih =>
    simp only [List.map_cons, okCall, Store.run_cons, hmk, List.foldl_cons]
    exact ih (bump (p a) m)

/-- Successful inserts inside the transaction append to the staging table. -/
theorem run_tx_inserts (ls : List (List Int)) :
    ∀ (m wk : Table) (tm : List Int),
      Store.run ((ls.map (fun q => Call.exec .tx (.insertTmp q))).map okCall)
          ⟨m, some ⟨wk, some tm⟩⟩
        = ⟨m, some ⟨wk, some (tm ++ ls.flatten)⟩⟩ := by
  induction ls with
  | nil => intro m wk tm; simp [Store.run_nil]
  | cons q rest ih =>
    intro m wk tm
    simp only [List.map_cons, okCall, Store.run_cons, Store.apply, Stmt.run, Option.map_some']
    have := ih m wk (tm ++ q)
    simp only [okCall] at this
    rw [this]
    simp

theorem run_closes (cl : Trace) (h : ∀ e ∈ cl, e.1 = Call.close) (s : Store) :
    Store.run cl s = s := by
  induction cl generalizing s with
  | nil => rfl
  | cons e rest ih =>
    have he : e.1 = Call.close := h e (by simp)
    obtain ⟨c, b⟩ := e
    simp only at he
    subst he
    rw [Store.run_cons]
    have : s.apply (Call.close, b) = s := by cases b <;> rfl
    rw [this]
    exact ih (fun e he => h e (by simp [he])) s

theorem run_inTx (cs : List Call) (h : ∀ c ∈ cs, c.inTx = true) :
    ∀ (m : Table) (x : TxState), ∃ y, Store.run (cs.map okCall) ⟨m, some x⟩ = ⟨m, some y⟩ := by
  induction cs with
  | nil => intro m x; exact ⟨x, rfl⟩
  | cons c rest ih =>
    intro m x
    have hc : c.inTx = true := h c (by simp)
    have hrest : ∀ d ∈ rest, d.inTx = true := fun d hd => h d (by simp [hd])
    simp only [List.map_cons, okCall, Store.run_cons]
    cases c with
    | begin => simp [Call.inTx] at hc
    | close => simp [Call.inTx] at hc
    | commit => simp [Call.inTx] at hc
    | rollback => simp [Call.inTx] at hc
    | prepare b => exact ih hrest m x
    | exec v st =>
      cases v with
      | db => simp [Call.inTx] at hc
      | dbStmt => simp [Call.inTx] at hc
      | tx => exact ih hrest m _
      | txStmt => exact ih hrest m _

theorem apply_failed (s : Store) (c : Call) : s.apply (c, false) = s := by
  cases c with
  | exec v st => cases v <;> rfl
  | _ => rfl

theorem apply_close (s : Store) (b : Bool) : s.apply (.close, b) = s := by
  cases b <;> rfl

theorem apply_rollback_main (s : Store) (b : Bool) : (s.apply (.rollback, b)).main = s.main := by
  cases b <;> rfl

/-- On a failing run of a transaction script the committed table is unchanged. -/
theorem txShape_fail_main (stmts : List Call) (r : Res Unit) (tr : Trace) (t : Table)
    (hs : TxShape stmts r tr) (hin : ∀ c ∈ stmts, c.inTx = true) (hr : r ≠ .ok ()) :
    (Store.run tr ⟨t, none⟩).main = t := by
  rcases hs with ⟨_, htr⟩ | ⟨_, pre, c, post, cl, b, hst, hcl, htr⟩ | ⟨_, cl, b, hcl, htr⟩ |
    ⟨hok, _⟩
  · subst htr; rfl
  · subst htr
    have hpre : ∀ d ∈ pre, d.inTx = true := fun d hd => hin d (by simp [hst, hd])
    obtain ⟨y, hy⟩ := run_inTx pre hpre t ⟨t, none⟩
    rw [Store.run_cons, Store.run_append, Store.run_cons, Store.run_append]
    have hb : (⟨t, none⟩ : Store).apply (.begin, true) = ⟨t, some ⟨t, none⟩⟩ := rfl
    rw [hb, hy, apply_failed, run_closes cl hcl, Store.run_cons, Store.run_nil,
      apply_rollback_main]
  · subst htr
    obtain ⟨y, hy⟩ := run_inTx stmts hin t ⟨t, none⟩
    rw [Store.run_cons, Store.run_append, Store.run_cons, Store.run_append]
    have hb : (⟨t, none⟩ : Store).apply (.begin, true) = ⟨t, some ⟨t, none⟩⟩ := rfl
    rw [hb, hy, apply_failed, run_closes cl hcl, Store.run_cons, Store.run_nil,
      apply_rollback_main]
  · exact absurd hok hr

/-- On a successful run of a transaction script the committed table is the
working table the statements have produced. -/
theorem txShape_ok_main (stmts : List Call) (r : Res Unit) (tr : Trace) (t : Table)
    (y : TxState) (hs : TxShape stmts r tr) (hr : r = .ok ())
    (hy : Store.run (stmts.map okCall) ⟨t, some ⟨t, none⟩⟩ = ⟨t, some y⟩) :
    (Store.run tr ⟨t, none⟩).main = y.work := by
  rcases hs with ⟨h, _⟩ | ⟨h, _⟩ | ⟨h, _⟩ | ⟨_, cl, b, hcl, htr⟩
  · rw [hr] at h; cases h
  · rw [hr] at h; cases h
  · rw [hr] at h; cases h
  · subst htr
    rw [Store.run_cons, Store.run_append, Store.run_cons, Store.run_append]
    have hb : (⟨t, none⟩ : Store).apply (.begin, true) = ⟨t, some ⟨t, none⟩⟩ := rfl
    have hc : (⟨t, some y⟩ : Store).apply (.commit, true) = ⟨y.work, none⟩ := rfl
    rw [hb, hy, hc, run_closes cl hcl, Store.run_cons, Store.run_nil, apply_rollback_main]

theorem strategy_txShape (s : Strategy) (hs : s.usesTx = true) (rids : List Int)
    (portion : Int) (fails : Nat → Bool) :
    TxShape (txStmts s rids portion) (s.code rids portion ⟨fails, []⟩).1
      (s.code rids portion ⟨fails, []⟩).2.trace := by
  cases s with
  | updateTransactPrep =>
    simp only [Strategy.code, txStmts, updateTransactPrep_eq]; exact txScript_shape _ _ _
  | updateTransactPrep4 =>
    simp only [Strategy.code, txStmts, updateTransactPrep4_eq]; exact txScript_shape _ _ _
  | updateTransactPrep8 =>
    simp only [Strategy.code, txStmts, updateTransactPrep8_eq]; exact txScript_shape _ _ _
  | updateTransactTextN =>
    simp only [Strategy.code, txStmts, updateTransactTextN_eq]; exact txScript_shape _ _ _
  | updateTempN =>
    simp only [Strategy.code, txStmts, updateTempN_eq]; exact txScript_shape _ _ _
  | updateStupid => simp [Strategy.usesTx] at hs
  | updatePrepared => simp [Strategy.usesTx] at hs
  | updateClassic1 => simp [Strategy.usesTx] at hs
  | updateTextN => simp [Strategy.usesTx] at hs

theorem txStmts_inTx (s : Strategy) (rids : List Int) (portion : Int) :
    ∀ c ∈ txStmts s rids portion, c.inTx = true := by
  intro c hc
  cases s <;> simp [txStmts, txPlan] at hc
  · rcases hc with rfl | ⟨a, _, rfl⟩ <;> rfl
  · rcases hc with rfl | ⟨a, _, rfl⟩ <;> rfl
  · rcases hc with rfl | ⟨a, _, rfl⟩ <;> rfl
  · rcases hc with ⟨a, _, rfl⟩; rfl
  · rcases hc with rfl | ⟨a, _, rfl⟩ | rfl <;> rfl

theorem countP_beq (rids : List Int) (r : Int) :
    rids.countP (fun a => r == a) = rids.count r := by
  induction rids with
  | nil => rfl
  | cons a rest ih =>
    by_cases h : r = a
    · subst h; simp [List.countP_cons, ih]
    · have h2 : ¬ a = r := fun e => h e.symm
      simp [List.countP_cons, List.count_cons, ih, h, h2]

theorem bump_eq_addMarks (p : Int → Bool) (t : Table) :
    bump p t = addMarks (fun r => if p r then 1 else 0) t := by
  unfold bump addMarks
  apply List.map_congr_left
  intro r _
  by_cases h : p r.rid <;> simp [h]

theorem textGroups_eq_map (rids : List Int) (portion : Int) :
    textGroups rids portion
      = (List.range ((rids.length + groupSize portion - 1) / groupSize portion)).map
          (fun k => (rids.drop (k * groupSize portion)).take (groupSize portion)) :=
  chunks_eq_map _ (groupSize_pos portion) rids.length rids (le_refl _)

theorem textGroups_flatten (rids : List Int) (portion : Int) :
    (textGroups rids portion).flatten = rids :=
  chunks_flatten _ (groupSize_pos portion) rids.length rids (le_refl _)

theorem countP_textGroups (rids : List Int) (portion r : Int) :
    (textGroups rids portion).countP (fun l => l.contains r)
      = piecesWith (groupSize portion)
          ((rids.length + groupSize portion - 1) / groupSize portion) rids r := by
  rw [textGroups_eq_map, List.countP_map]
  rfl

theorem countP_fixedGroups (g : Nat) (rids : List Int) (r : Int) :
    (fixedGroups g rids 0).countP (fun l => l.contains r)
      = piecesWith g (rids.length / g) rids r := by
  unfold fixedGroups piecesWith
  rw [List.countP_map]
  simp only [Nat.sub_zero, Nat.zero_add]
  rfl

theorem issueAll_ok_trace (cs : List Call) (w : World) (h : (issueAll cs w).1 = .ok ()) :
    (issueAll cs w).2.trace = w.trace ++ cs.map okCall := by
  rcases issueAll_shape cs w with h1 | ⟨pre, c, post, _, h1⟩
  · rw [h1]
  · rw [h1] at h; cases h

theorem issueAll_res (cs : List Call) (w : World) :
    (issueAll cs w).1 = .ok () ∨ (issueAll cs w).1 = .logPanic := by
  rcases issueAll_shape cs w with h1 | ⟨pre, c, post, _, h1⟩
  · left; rw [h1]
  · right; rw [h1]

theorem run_rows_db (v : Via) (hv : v = .db ∨ v = .dbStmt) (rids : List Int) (t : Table)
    (tx : Option TxState) :
    Store.run ((rids.map (fun x => Call.exec v (.updateEq x))).map okCall) ⟨t, tx⟩
      = ⟨addMarks (fun r => (rids.count r : Int)) t, tx⟩ := by
  have h := run_db_updates (fun x => Call.exec v (.updateEq x)) (fun a r => r == a)
    (by rcases hv with rfl | rfl <;> intro a m tx <;> rfl) rids t tx
  rw [h]
  simp only [countP_beq]

theorem run_groups_db (ls : List (List Int)) (t : Table) (tx : Option TxState) :
    Store.run ((ls.map (fun q => Call.exec .db (.updateIn q))).map okCall) ⟨t, tx⟩
      = ⟨addMarks (fun r => ((ls.countP (fun l => l.contains r) : Nat) : Int)) t, tx⟩ :=
  run_db_updates (fun q => Call.exec .db (.updateIn q)) (fun l r => l.contains r)
    (by intro a m tx; rfl) ls t tx

theorem run_rows_tx (rids : List Int) (m wk : Table) (tm : Option (List Int)) :
    Store.run ((rids.map (fun x => Call.exec .txStmt (.updateEq x))).map okCall)
        ⟨m, some ⟨wk, tm⟩⟩
      = ⟨m, some ⟨addMarks (fun r => (rids.count r : Int)) wk, tm⟩⟩ := by
  have h := run_tx_updates (fun x => Call.exec .txStmt (.updateEq x)) (fun a r => r == a)
    (by intro a m wk tm; rfl) rids m wk tm
  rw [h]
  simp only [countP_beq]

theorem run_groups_tx (v : Via) (hv : v = .tx ∨ v = .txStmt) (ls : List (List Int))
    (m wk : Table) (tm : Option (List Int)) :
    Store.run ((ls.map (fun q => Call.exec v (.updateIn q))).map okCall) ⟨m, some ⟨wk, tm⟩⟩
      = ⟨m, some ⟨addMarks (fun r => ((ls.countP (fun l => l.contains r) : Nat) : Int)) wk,
          tm⟩⟩ :=
  run_tx_updates (fun q => Call.exec v (.updateIn q)) (fun l r => l.contains r)
    (by rcases hv with rfl | rfl <;> intro a m wk tm <;> rfl) ls m wk tm

/-- The working table and staging table once every call between `Begin` and
`Commit` of a transaction strategy has succeeded. -/
theorem txStmts_run (s : Strategy) (hs : s.usesTx = true) (rids : List Int) (portion : Int)
    (t : Table) :
    ∃ tm, Store.run ((txStmts s rids portion).map okCall) ⟨t, some ⟨t, none⟩⟩
      = ⟨t, some ⟨addMarks (marksAdded s rids portion) t, tm⟩⟩ := by
  cases s with
  | updateStupid => simp [Strategy.usesTx] at hs
  | updatePrepared => simp [Strategy.usesTx] at hs
  | updateClassic1 => simp [Strategy.usesTx] at hs
  | updateTextN => simp [Strategy.usesTx] at hs
  | updateTransactPrep =>
    refine ⟨none, ?_⟩
    simp only [txStmts, txPlan, if_true, List.map_cons, Store.run_cons]
    exact run_rows_tx rids t t none
  | updateTransactPrep4 =>
    refine ⟨none, ?_⟩
    simp only [txStmts, txPlan, if_true, List.map_cons, Store.run_cons]
    rw [show (⟨t, some ⟨t, none⟩⟩ : Store).apply (okCall (.prepare true))
      = ⟨t, some ⟨t, none⟩⟩ from rfl, run_groups_tx .txStmt (Or.inr rfl)]
    simp only [countP_fixedGroups]
    rfl
  | updateTransactPrep8 =>
    refine ⟨none, ?_⟩
    simp only [txStmts, txPlan, if_true, List.map_cons, Store.run_cons]
    rw [show (⟨t, some ⟨t, none⟩⟩ : Store).apply (okCall (.prepare true))
      = ⟨t, some ⟨t, none⟩⟩ from rfl, run_groups_tx .txStmt (Or.inr rfl)]
    simp only [countP_fixedGroups]
    rfl
  | updateTransactTextN =>
    refine ⟨none, ?_⟩
    simp only [txStmts, txPlan, Bool.false_eq_true, if_false]
    rw [run_groups_tx .tx (Or.inl rfl)]
    simp only [countP_textGroups]
    rfl
  | updateTempN =>
    refine ⟨some rids, ?_⟩
    simp only [txStmts, txPlan, Bool.false_eq_true, if_false, List.map_cons, List.map_append,
      Store.run_cons, Store.run_append, List.map_nil, Store.run_nil]
    rw [show (⟨t, some ⟨t, none⟩⟩ : Store).apply (okCall (.exec .tx .createTmp))
      = ⟨t, some ⟨t, some []⟩⟩ from rfl, run_tx_inserts, List.nil_append, textGroups_flatten]
    simp only [okCall, Store.apply, Stmt.run, Option.getD_some, bump_eq_addMarks]
    rfl

theorem strategy_res (s : Strategy) (rids : List Int) (portion : Int) (fails : Nat → Bool) :
    (s.code rids portion ⟨fails, []⟩).1 = .ok ()
      ∨ (s.code rids portion ⟨fails, []⟩).1 = .logPanic := by
  by_cases hs : s.usesTx = true
  · rcases strategy_txShape s hs rids portion fails with ⟨h, _⟩ | ⟨h, _⟩ | ⟨h, _⟩ | ⟨h, _⟩
    · exact Or.inr h
    · exact Or.inr h
    · exact Or.inr h
    · exact Or.inl h
  · cases s with
    | updateTransactPrep => simp [Strategy.usesTx] at hs
    | updateTransactPrep4 => simp [Strategy.usesTx] at hs
    | updateTransactPrep8 => simp [Strategy.usesTx] at hs
    | updateTransactTextN => simp [Strategy.usesTx] at hs
    | updateTempN => simp [Strategy.usesTx] at hs
    | updateStupid =>
      simp only [Strategy.code, updateStupid_eq]; exact issueAll_res _ _
    | updateClassic1 =>
      simp only [Strategy.code, updateClassic1_eq]; exact issueAll_res _ _
    | updateTextN =>
      simp only [Strategy.code, updateTextN_eq]; exact issueAll_res _ _
    | updatePrepared =>
      simp only [Strategy.code, updatePrepared_eq]
      rw [checked_eq]
      cases h0 : fails 0 with
      | true => right; simp [h0]
      | false =>
        simp only [h0, List.length_nil, Bool.false_eq_true, if_false, deferred_eq]
        exact issueAll_res _ _

/-- The table a successful run leaves behind. -/
theorem strategy_effect (s : Strategy) (rids : List Int) (portion : Int) (fails : Nat → Bool)
    (t : Table) (hok : (s.code rids portion ⟨fails, []⟩).1 = .ok ()) :
    visibleAfter (s.code rids portion) fails t = addMarks (marksAdded s rids portion) t := by
  by_cases hs : s.usesTx = true
  · obtain ⟨tm, htm⟩ := txStmts_run s hs rids portion t
    exact txShape_ok_main _ _ _ t _ (strategy_txShape s hs rids portion fails) hok htm
  · unfold visibleAfter
    cases s with
    | updateTransactPrep => simp [Strategy.usesTx] at hs
    | updateTransactPrep4 => simp [Strategy.usesTx] at hs
    | updateTransactPrep8 => simp [Strategy.usesTx] at hs
    | updateTransactTextN => simp [Strategy.usesTx] at hs
    | updateTempN => simp [Strategy.usesTx] at hs
    | updateStupid =>
      simp only [Strategy.code, updateStupid_eq] at hok ⊢
      rw [issueAll_ok_trace _ _ hok, List.nil_append, run_rows_db .db (Or.inl rfl)]
      rfl
    | updateClassic1 =>
      simp only [Strategy.code, updateClassic1_eq] at hok ⊢
      rw [issueAll_ok_trace _ _ hok, List.nil_append, run_rows_db .db (Or.inl rfl)]
      rfl
    | updateTextN =>
      simp only [Strategy.code, updateTextN_eq] at hok ⊢
      rw [issueAll_ok_trace _ _ hok, List.nil_append, run_groups_db]
      simp only [countP_textGroups]
      rfl
    | updatePrepared =>
      simp only [Strategy.code, updatePrepared_eq] at hok ⊢
      rw [checked_eq] at hok ⊢
      cases h0 : fails 0 with
      | true => simp [h0] at hok
      | false =>
        simp only [h0, List.length_nil, Bool.false_eq_true, if_false, deferred_eq,
          List.nil_append] at hok ⊢
        rw [issueAll_ok_trace _ _ hok, Store.run_append, Store.run_append,
          Store.run_cons, Store.run_cons, Store.run_nil, Store.run_nil]
        rw [show (⟨t, none⟩ : Store).apply (.prepare false, true) = ⟨t, none⟩ from rfl,
          run_rows_db .dbStmt (Or.inr rfl)]
        rw [apply_close]
        rfl

theorem countP_contains_flatten (ls : List (List Int)) (r : Int) (h : ls.flatten.Nodup) :
    ls.countP (fun l => l.contains r) = ls.flatten.count r := by
  induction ls with
  | nil => rfl
  | cons l rest ih =>
    rw [List.flatten_cons, List.nodup_append] at h
    obtain ⟨hl, hrest, _⟩ := h
    rw [List.countP_cons, ih hrest, List.flatten_cons, List.count_append,
      List.count_eq_of_nodup hl]
    by_cases hm : r ∈ l <;> simp [hm, Nat.add_comm]

theorem fixedGroups_eq_chunks (g : Nat) (hg : 0 < g) (rids : List Int) (hd : g ∣ rids.length) :
    fixedGroups g rids 0 = chunks g rids.length rids := by
  obtain ⟨c, hc⟩ := hd
  have h1 : (rids.length + g - 1) / g = rids.length / g := by
    have e : rids.length + g - 1 = g * c + (g - 1) := by omega
    rw [e, hc, Nat.mul_add_div hg, Nat.mul_div_cancel_left c hg, Nat.div_eq_of_lt (by omega)]
    rfl
  rw [chunks_eq_map g hg rids.length rids (le_refl _), h1]
  unfold fixedGroups
  simp only [Nat.sub_zero, Nat.zero_add]

theorem marksAdded_nodup (s : Strategy) (rids : List Int) (portion : Int) (hn : rids.Nodup)
    (h4 : s = .updateTransactPrep4 → 4 ∣ rids.length)
    (h8 : s = .updateTransactPrep8 → 8 ∣ rids.length) (r : Int) :
    marksAdded s rids portion r = rids.count r := by
  have htext : ((piecesWith (groupSize portion)
      ((rids.length + groupSize portion - 1) / groupSize portion) rids r : Nat) : Int)
      = rids.count r := by
    rw [← countP_textGroups, countP_contains_flatten _ r (by rw [textGroups_flatten]; exact hn),
      textGroups_flatten]
  have hfixed : ∀ g : Nat, 0 < g → g ∣ rids.length →
      ((piecesWith g (rids.length / g) rids r : Nat) : Int) = rids.count r := by
    intro g hg hd
    have hf : (fixedGroups g rids 0).flatten = rids := by
      rw [fixedGroups_eq_chunks g hg rids hd]
      exact chunks_flatten g hg rids.length rids (le_refl _)
    rw [← countP_fixedGroups, countP_contains_flatten _ r (by rw [hf]; exact hn), hf]
  cases s with
  | updateStupid => rfl
  | updatePrepared => rfl
  | updateClassic1 => rfl
  | updateTransactPrep => rfl
  | updateTransactPrep4 => exact hfixed 4 (by decide) (h4 rfl)
  | updateTransactPrep8 => exact hfixed 8 (by decide) (h8 rfl)
  | updateTransactTextN => exact htext
  | updateTextN => exact htext
  | updateTempN =>
    simp only [marksAdded, List.count_eq_of_nodup hn]
    by_cases hm : r ∈ rids <;> simp [hm]

theorem execsOf_append (a b : Trace) : execsOf (a ++ b) = execsOf a ++ execsOf b := by
  simp [execsOf, List.filterMap_append]

theorem execsOf_closes (cl : Trace) (h : ∀ e ∈ cl, e.1 = Call.close) : execsOf cl = [] := by
  induction cl with
  | nil => rfl
  | cons e rest ih =>
    have he : e.1 = Call.close := h e (by simp)
    obtain ⟨c, b⟩ := e
    simp only at he
    subst he
    have := ih (fun e he => h e (by simp [he]))
    simpa [execsOf] using this

theorem execsOf_map_exec {α : Type} (v : Via) (mk : α → Stmt) (l : List α) :
    execsOf ((l.map (fun a => Call.exec v (mk a))).map okCall) = l.map mk := by
  induction l with
  | nil => rfl
  | cons a rest ih =>
    simp only [List.map_cons, okCall] at ih ⊢
    simp only [execsOf, List.filterMap_cons] at ih ⊢
    rw [ih]

theorem execsOf_txStmts (s : Strategy) (hs : s.usesTx = true) (rids : List Int)
    (portion : Int) :
    execsOf ((txStmts s rids portion).map okCall) = stmtsOf s rids portion := by
  cases s with
  | updateStupid => simp [Strategy.usesTx] at hs
  | updatePrepared => simp [Strategy.usesTx] at hs
  | updateClassic1 => simp [Strategy.usesTx] at hs
  | updateTextN => simp [Strategy.usesTx] at hs
  | updateTransactPrep =>
    simp only [txStmts, txPlan, if_true, List.map_cons, stmtsOf]
    rw [← execsOf_map_exec .txStmt Stmt.updateEq rids]
    rfl
  | updateTransactPrep4 =>
    simp only [txStmts, txPlan, if_true, List.map_cons, stmtsOf]
    rw [← execsOf_map_exec .txStmt Stmt.updateIn (fixedGroups 4 rids 0)]
    rfl
  | updateTransactPrep8 =>
    simp only [txStmts, txPlan, if_true, List.map_cons, stmtsOf]
    rw [← execsOf_map_exec .txStmt Stmt.updateIn (fixedGroups 8 rids 0)]
    rfl
  | updateTransactTextN =>
    simp only [txStmts, txPlan, Bool.false_eq_true, if_false, stmtsOf]
    exact execsOf_map_exec .tx Stmt.updateIn _
  | updateTempN =>
    simp only [txStmts, txPlan, Bool.false_eq_true, if_false, stmtsOf, List.map_cons,
      List.map_append]
    rw [show okCall (.exec .tx .createTmp)
        :: ((List.map (fun q => Call.exec .tx (.insertTmp q)) (textGroups rids portion)).map okCall
          ++ okCall (Call.exec .tx .updateFromTmp) :: List.map okCall [])
      = [okCall (.exec .tx .createTmp)]
        ++ ((List.map (fun q => Call.exec .tx (.insertTmp q)) (textGroups rids portion)).map okCall
          ++ [okCall (Call.exec .tx .updateFromTmp)]) from rfl,
      execsOf_append, execsOf_append, execsOf_map_exec .tx Stmt.insertTmp]
    rfl

/-- The statements executed by a run that ended without error. -/
theorem execsOf_ok (s : Strategy) (rids : List Int) (portion : Int) (fails : Nat → Bool)
    (hok : (s.code rids portion ⟨fails, []⟩).1 = .ok ()) :
    execsOf (s.code rids portion ⟨fails, []⟩).2.trace = stmtsOf s rids portion := by
  by_cases hs : s.usesTx = true
  · rcases strategy_txShape s hs rids portion fails with ⟨h, _⟩ | ⟨h, _⟩ | ⟨h, _⟩ |
      ⟨_, cl, b, hcl, htr⟩
    · rw [hok] at h; cases h
    · rw [hok] at h; cases h
    · rw [hok] at h; cases h
    · rw [htr]
      rw [show ((Call.begin, true) :: ((txStmts s rids portion).map okCall
            ++ (Call.commit, true) :: (cl ++ [(Call.rollback, b)])))
          = [(Call.begin, true)] ++ ((txStmts s rids portion).map okCall
            ++ ([(Call.commit, true)] ++ (cl ++ [(Call.rollback, b)]))) from rfl,
        execsOf_append, execsOf_append, execsOf_append, execsOf_append, execsOf_closes cl hcl,
        execsOf_txStmts s hs]
      simp [execsOf]
  · cases s with
    | updateTransactPrep => simp [Strategy.usesTx] at hs
    | updateTransactPrep4 => simp [Strategy.usesTx] at hs
    | updateTransactPrep8 => simp [Strategy.usesTx] at hs
    | updateTransactTextN => simp [Strategy.usesTx] at hs
    | updateTempN => simp [Strategy.usesTx] at hs
    | updateStupid =>
      simp only [Strategy.code, updateStupid_eq] at hok ⊢
      rw [issueAll_ok_trace _ _ hok, List.nil_append]
      exact execsOf_map_exec .db Stmt.updateEq rids
    | updateClassic1 =>
      simp only [Strategy.code, updateClassic1_eq] at hok ⊢
      rw [issueAll_ok_trace _ _ hok, List.nil_append]
      exact execsOf_map_exec .db Stmt.updateEq rids
    | updateTextN =>
      simp only [Strategy.code, updateTextN_eq] at hok ⊢
      rw [issueAll_ok_trace _ _ hok, List.nil_append]
      exact execsOf_map_exec .db Stmt.updateIn _
    | updatePrepared =>
      simp only [Strategy.code, updatePrepared_eq] at hok ⊢
      rw [checked_eq] at hok ⊢
      cases h0 : fails 0 with
      | true => simp [h0] at hok
      | false =>
        simp only [h0, List.length_nil, Bool.false_eq_true, if_false, deferred_eq,
          List.nil_append] at hok ⊢
        rw [issueAll_ok_trace _ _ hok, execsOf_append, execsOf_append,
          execsOf_map_exec .dbStmt Stmt.updateEq rids]
        simp [execsOf, stmtsOf]

theorem issueAll_quiet (cs : List Call) :
    ∀ tr : Trace, issueAll cs ⟨fun _ => false, tr⟩
      = (.ok (), ⟨fun _ => false, tr ++ cs.map okCall⟩) := by
  induction cs with
  | nil => intro tr; simp [issueAll, done]
  | cons c rest ih =>
    intro tr
    simp only [issueAll, checked_eq, Bool.false_eq_true, if_false, ih, List.map_cons,
      List.append_assoc, List.singleton_append, okCall]

theorem txScript_quiet (prep : Bool) (body : List Call) :
    (txScript prep body ⟨fun _ => false, []⟩).1 = .ok () := by
  cases prep <;>
    simp [txScript, checked_eq, deferred_eq, issueAll_quiet]

/-- When no call fails every strategy returns normally. -/
theorem quiet_ok (s : Strategy) (rids : List Int) (portion : Int) :
    (s.code rids portion ⟨fun _ => false, []⟩).1 = .ok () := by
  cases s with
  | updateStupid => simp only [Strategy.code, updateStupid_eq, issueAll_quiet]
  | updateClassic1 => simp only [Strategy.code, updateClassic1_eq, issueAll_quiet]
  | updateTextN => simp only [Strategy.code, updateTextN_eq, issueAll_quiet]
  | updatePrepared =>
    simp [Strategy.code, updatePrepared_eq, checked_eq, deferred_eq, issueAll_quiet]
  | updateTransactPrep =>
    simp only [Strategy.code, updateTransactPrep_eq]; exact txScript_quiet _ _
  | updateTransactPrep4 =>
    simp only [Strategy.code, updateTransactPrep4_eq]; exact txScript_quiet _ _
  | updateTransactPrep8 =>
    simp only [Strategy.code, updateTransactPrep8_eq]; exact txScript_quiet _ _
  | updateTransactTextN =>
    simp only [Strategy.code, updateTransactTextN_eq]; exact txScript_quiet _ _
  | updateTempN =>
    simp only [Strategy.code, updateTempN_eq]; exact txScript_quiet _ _

theorem ceil_div_eq (W n : Nat) (hn : 0 < n) :
    ⌈(W : ℚ) / (n : ℚ)⌉ = (((W + n - 1) / n : Nat) : Int) := by
  have hnq : (0 : ℚ) < n := by exact_mod_cast hn
  have h1 : (W + n - 1) / n * n ≤ W + n - 1 := Nat.div_mul_le_self _ _
  have h2 : W + n - 1 < n * ((W + n - 1) / n + 1) := Nat.lt_mul_div_succ _ hn
  rw [Int.ceil_eq_iff]
  generalize (W + n - 1) / n = c at h1 h2
  have h1' : c * n < W + n := by omega
  have h2' : W ≤ c * n := by
    rw [Nat.mul_add, Nat.mul_one, Nat.mul_comm] at h2; omega
  constructor
  · rw [lt_div_iff₀ hnq]
    have : ((c * n : Nat) : ℚ) < ((W + n : Nat) : ℚ) := by exact_mod_cast h1'
    push_cast at this ⊢
    linarith
  · rw [div_le_iff₀ hnq]
    have : ((W : Nat) : ℚ) ≤ ((c * n : Nat) : ℚ) := by exact_mod_cast h2'
    push_cast at this ⊢
    linarith

theorem ceil_pred_mul_lt (W n : Nat) (hW : 0 < W) :
    ((W + n - 1) / n - 1) * n < W := by
  have h1 : (W + n - 1) / n * n ≤ W + n - 1 := Nat.div_mul_le_self _ _
  rw [Nat.sub_mul, Nat.one_mul]
  omega

theorem textGroups_length (rids : List Int) (portion : Int) :
    (textGroups rids portion).length
      = (rids.length + groupSize portion - 1) / groupSize portion := by
  rw [textGroups_eq_map]; simp

theorem textGroups_getElem? (rids : List Int) (portion : Int) (k : Nat)
    (hk : k < (textGroups rids portion).length) :
    (textGroups rids portion)[k]?
      = some ((rids.drop (k * groupSize portion)).take (groupSize portion)) := by
  rw [textGroups_length] at hk
  rw [textGroups_eq_map, List.getElem?_map, List.getElem?_range hk]
  rfl

theorem textGroups_inner_length (rids : List Int) (portion : Int) (k : Nat)
    (hk : k + 1 < (textGroups rids portion).length) :
    ((rids.drop (k * groupSize portion)).take (groupSize portion)).length
      = groupSize portion := by
  rw [textGroups_length] at hk
  have hW : 0 < rids.length := by
    rcases Nat.eq_zero_or_pos rids.length with h0 | h0
    · rw [h0, Nat.zero_add, Nat.div_eq_of_lt (Nat.sub_lt (groupSize_pos portion) (by decide))]
        at hk
      omega
    · exact h0
  have h1 := ceil_pred_mul_lt rids.length (groupSize portion) hW
  have h2 : (k + 1) * groupSize portion
      ≤ ((rids.length + groupSize portion - 1) / groupSize portion - 1) * groupSize portion :=
    Nat.mul_le_mul_right _ (by omega)
  rw [Nat.add_mul, Nat.one_mul] at h2
  rw [List.length_take, List.length_drop]
  omega

theorem textGroups_last_length (rids : List Int) (portion : Int) (q : List Int)
    (hq : (textGroups rids portion).getLast? = some q) :
    1 ≤ q.length ∧ q.length ≤ groupSize portion := by
  rw [List.getLast?_eq_getElem?] at hq
  have hpos : 0 < (textGroups rids portion).length := by
    rcases Nat.eq_zero_or_pos (textGroups rids portion).length with h0 | h0
    · rw [h0] at hq
      have : textGroups rids portion = [] := List.length_eq_zero.mp h0
      rw [this] at hq
      simp at hq
    · exact h0
  rw [textGroups_getElem? rids portion _ (by omega)] at hq
  have hq2 := Option.some.inj hq
  rw [textGroups_length] at hpos
  have hW : 0 < rids.length := by
    rcases Nat.eq_zero_or_pos rids.length with h0 | h0
    · rw [h0, Nat.zero_add, Nat.div_eq_of_lt (Nat.sub_lt (groupSize_pos portion) (by decide))]
        at hpos
      omega
    · exact h0
  have h1 := ceil_pred_mul_lt rids.length (groupSize portion) hW
  have hg := groupSize_pos portion
  rw [← hq2, List.length_take, List.length_drop, textGroups_length]
  omega

theorem chunks_one (l : List Int) :
    ∀ fuel : Nat, l.length ≤ fuel → chunks 1 fuel l = l.map (fun x => [x]) := by
  induction l with
  | nil => intro fuel _; cases fuel <;> simp [chunks]
  | cons x rest ih =>
    intro fuel h
    cases fuel with
    | zero => simp at h
    | succ fuel =>
      simp only [chunks, List.cons_ne_nil, if_false, List.take_succ_cons, List.take_zero,
        List.drop_succ_cons, List.drop_zero, List.map_cons]
      rw [ih fuel (by simpa using h)]

theorem textGroups_small (rids : List Int) (portion : Int) (hp : portion ≤ 1) :
    textGroups rids portion = rids.map (fun x => [x]) := by
  unfold textGroups
  rw [groupSize_of_le_one portion hp]
  exact chunks_one rids rids.length (le_refl _)

theorem filterMap_retract {α β : Type} (f : α → β) (g : β → Option α)
    (h : ∀ a, g (f a) = some a) (l : List α) : l.filterMap (g ∘ f) = l := by
  induction l with
  | nil => rfl
  | cons a rest ih => simp [List.filterMap_cons, h, ih]

theorem updateLists_textN (s : Strategy) (hs : s = .updateTextN ∨ s = .updateTransactTextN)
    (rids : List Int) (portion : Int) (fails : Nat → Bool)
    (hok : (s.code rids portion ⟨fails, []⟩).1 = .ok ()) :
    updateLists (s.code rids portion ⟨fails, []⟩).2.trace = textGroups rids portion := by
  unfold updateLists
  rw [execsOf_ok s rids portion fails hok]
  rcases hs with rfl | rfl <;>
    simp only [stmtsOf, List.filterMap_map] <;>
    exact filterMap_retract _ _ (fun _ => rfl) _

theorem insertLists_tempN (rids : List Int) (portion : Int) (fails : Nat → Bool)
    (hok : (Strategy.updateTempN.code rids portion ⟨fails, []⟩).1 = .ok ()) :
    insertLists (Strategy.updateTempN.code rids portion ⟨fails, []⟩).2.trace
      = textGroups rids portion := by
  unfold insertLists
  rw [execsOf_ok _ rids portion fails hok]
  simp only [stmtsOf, List.filterMap_cons, List.filterMap_append, List.filterMap_map,
    List.filterMap_nil, List.append_nil]
  exact filterMap_retract _ _ (fun _ => rfl) _

theorem chunks_fuel (n : Nat) (hn : 0 < n) (l : List Int) (f1 f2 : Nat)
    (h1 : l.length ≤ f1) (h2 : l.length ≤ f2) : chunks n f1 l = chunks n f2 l := by
  rw [chunks_eq_map n hn f1 l h1, chunks_eq_map n hn f2 l h2]

theorem fixedGroups_length (g : Nat) (rids : List Int) :
    (fixedGroups g rids 0).length = rids.length / g := by
  simp [fixedGroups]

theorem fixedGroups_getElem? (g : Nat) (rids : List Int) (k : Nat) (hk : k < rids.length / g) :
    (fixedGroups g rids 0)[k]? = some ((rids.drop (k * g)).take g) := by
  unfold fixedGroups
  rw [List.getElem?_map, Nat.sub_zero, List.getElem?_range hk]
  simp

theorem div_mul_bound (W g k : Nat) (hk : k < W / g) : g * k + g ≤ W - W % g := by
  have h1 : g * (W / g) + W % g = W := Nat.div_add_mod W g
  have h2 : g * (k + 1) ≤ g * (W / g) := Nat.mul_le_mul_left g (by omega)
  rw [Nat.mul_add, Nat.mul_one] at h2
  omega

theorem execsOf_fixed (s : Strategy) (g : Nat)
    (hs : (s = .updateTransactPrep4 ∧ g = 4) ∨ (s = .updateTransactPrep8 ∧ g = 8))
    (rids : List Int) (portion : Int) (fails : Nat → Bool)
    (hok : (s.code rids portion ⟨fails, []⟩).1 = .ok ()) :
    execsOf (s.code rids portion ⟨fails, []⟩).2.trace
      = (fixedGroups g rids 0).map Stmt.updateIn := by
  rw [execsOf_ok s rids portion fails hok]
  rcases hs with ⟨rfl, rfl⟩ | ⟨rfl, rfl⟩ <;> rfl

theorem textGroups_nil (portion : Int) : textGroups [] portion = [] := rfl

theorem fixedGroups_nil (g : Nat) : fixedGroups g [] 0 = [] := by
  simp [fixedGroups]

theorem piecesWith_nil (n cnt : Nat) (r : Int) : piecesWith n cnt [] r = 0 := by
  simp [piecesWith]

theorem marksAdded_nil (s : Strategy) (portion : Int) (r : Int) :
    marksAdded s [] portion r = 0 := by
  cases s <;> simp [marksAdded, piecesWith_nil]

theorem benchAll_fixed (b : ℚ) (w : Nat) (hb : b ≠ 0) (rest : List (List Nat)) :
    benchAll rest ⟨b, w⟩ = (⟨b, w⟩, rest.map (fun d => ⟨meanMs d, fdiv b (meanMs d)⟩)) := by
  induction rest with
  | nil => rfl
  | cons d rest ih =>
    have hstep : bench d ⟨b, w⟩ = (⟨b, w⟩, ⟨meanMs d, fdiv b (meanMs d)⟩) := by
      simp [bench, hb]
    simp only [benchAll, hstep, ih, List.map_cons]

theorem scan_append (a b : Trace) :
    ∀ p : Phase, Phase.scan p (a ++ b) = (Phase.scan p a).bind (fun q => Phase.scan q b) := by
  induction a with
  | nil => intro p; rfl
  | cons e rest ih =>
    intro p
    simp only [List.cons_append, Phase.scan]
    cases h : p.step e with
    | none => rfl
    | some p1 => exact ih p1

theorem scan_inTx (cs : List Call) (h : ∀ c ∈ cs, c.inTx = true) :
    Phase.scan .inside (cs.map okCall) = some .inside := by
  induction cs with
  | nil => rfl
  | cons c rest ih =>
    have hc : c.inTx = true := h c (by simp)
    have hrest := ih (fun d hd => h d (by simp [hd]))
    cases c with
    | begin => simp [Call.inTx] at hc
    | close => simp [Call.inTx] at hc
    | commit => simp [Call.inTx] at hc
    | rollback => simp [Call.inTx] at hc
    | prepare b => simpa [Phase.scan, Phase.step, okCall] using hrest
    | exec v st => simpa [Phase.scan, Phase.step, okCall] using hrest

theorem scan_closes (cl : Trace) (h : ∀ e ∈ cl, e.1 = Call.close) (p : Phase)
    (hp : p = .inside ∨ p = .over) : Phase.scan p cl = some p := by
  induction cl with
  | nil => rfl
  | cons e rest ih =>
    have he : e.1 = Call.close := h e (by simp)
    obtain ⟨c, b⟩ := e
    simp only at he
    subst he
    have hrest := ih (fun e he => h e (by simp [he]))
    rcases hp with rfl | rfl <;> simpa [Phase.scan, Phase.step] using hrest

theorem inTx_checked (c : Call) (h : c.inTx = true) :
    c.isChecked = true ∧ c ≠ .commit ∧ c ≠ .begin ∧ c ≠ .rollback ∧ c ≠ .close := by
  cases c with
  | exec v st => cases v <;> simp [Call.inTx, Call.isChecked] at h ⊢
  | _ => simp [Call.inTx, Call.isChecked] at h ⊢

theorem mem_okCall (cs : List Call) (c : Call) (b : Bool) :
    (c, b) ∈ cs.map okCall ↔ c ∈ cs ∧ b = true := by
  simp only [List.mem_map, okCall, Prod.mk.injEq]
  constructor
  · rintro ⟨a, ha, rfl, rfl⟩; exact ⟨ha, rfl⟩
  · rintro ⟨hc, rfl⟩; exact ⟨c, hc, rfl, rfl⟩

theorem scan_cons (p : Phase) (e : Call × Bool) (rest : Trace) :
    Phase.scan p (e :: rest) = (p.step e).bind (fun q => Phase.scan q rest) := by
  simp only [Phase.scan]
  cases p.step e <;> rfl

theorem scan_nil (p : Phase) : Phase.scan p [] = some p := rfl

theorem step_begin : Phase.step .idle (.begin, true) = some .inside := rfl

theorem step_rollback_inside (b : Bool) : Phase.step .inside (.rollback, b) = some .over := rfl

theorem step_rollback_over (b : Bool) : Phase.step .over (.rollback, b) = some .over := rfl

theorem step_commit (b : Bool) : Phase.step .inside (.commit, b) = some .over := rfl

theorem shape_scan (stmts : List Call) (r : Res Unit) (tr : Trace)
    (hs : TxShape stmts r tr) (hin : ∀ c ∈ stmts, c.inTx = true) :
    Phase.scan .idle tr = some .over := by
  rcases hs with ⟨_, htr⟩ | ⟨_, pre, c, post, cl, b, hst, hcl, htr⟩ | ⟨_, cl, b, hcl, htr⟩ |
    ⟨_, cl, b, hcl, htr⟩
  · subst htr; rfl
  · subst htr
    have hpre : ∀ d ∈ pre, d.inTx = true := fun d hd => hin d (by simp [hst, hd])
    have hc : c.inTx = true := hin c (by simp [hst])
    have h1 : Phase.step .inside (c, false) = some .inside := by
      cases c with
      | exec v st => rfl
      | prepare b => rfl
      | _ => simp [Call.inTx] at hc
    simp only [scan_cons, scan_nil, step_begin, step_rollback_inside, scan_append,
      scan_inTx pre hpre, Option.some_bind, h1, scan_closes cl hcl .inside (Or.inl rfl)]
  · subst htr
    simp only [scan_cons, scan_nil, step_begin, step_rollback_over, step_commit, scan_append,
      scan_inTx stmts hin, Option.some_bind, scan_closes cl hcl .over (Or.inr rfl)]
  · subst htr
    simp only [scan_cons, scan_nil, step_begin, step_rollback_over, step_commit, scan_append,
      scan_inTx stmts hin, Option.some_bind, scan_closes cl hcl .over (Or.inr rfl)]

theorem shape_head (stmts : List Call) (r : Res Unit) (tr : Trace) (hs : TxShape stmts r tr) :
    ∃ b, tr.head? = some (.begin, b) := by
  rcases hs with ⟨_, htr⟩ | ⟨_, pre, c, post, cl, b, hst, hcl, htr⟩ | ⟨_, cl, b, hcl, htr⟩ |
    ⟨_, cl, b, hcl, htr⟩ <;> subst htr
  · exact ⟨false, rfl⟩
  · exact ⟨true, rfl⟩
  · exact ⟨true, rfl⟩
  · exact ⟨true, rfl⟩

theorem shape_commit_iff (stmts : List Call) (r : Res Unit) (tr : Trace)
    (hs : TxShape stmts r tr) (hin : ∀ c ∈ stmts, c.inTx = true) :
    (∃ b, (Call.commit, b) ∈ tr) ↔
      ∀ e ∈ tr, e.1.isChecked = true → e.1 ≠ .commit → e.2 = true := by
  rcases hs with ⟨_, htr⟩ | ⟨_, pre, c, post, cl, b, hst, hcl, htr⟩ | ⟨_, cl, b, hcl, htr⟩ |
    ⟨_, cl, b, hcl, htr⟩ <;> subst htr
  · constructor
    · rintro ⟨b, hb⟩; simp at hb
    · intro h
      have := h (.begin, false) (by simp) rfl (by simp)
      simp at this
  · have hpre : ∀ d ∈ pre, d.inTx = true := fun d hd => hin d (by simp [hst, hd])
    have hc : c.inTx = true := hin c (by simp [hst])
    obtain ⟨hc1, hc2, hc3, hc4, hc5⟩ := inTx_checked c hc
    constructor
    · rintro ⟨b1, hb⟩
      simp only [List.mem_cons, List.mem_append, mem_okCall, Prod.mk.injEq, List.not_mem_nil,
        or_false] at hb
      rcases hb with ⟨h, _⟩ | ⟨h, _⟩ | ⟨h, _⟩ | h | ⟨h, _⟩
      · cases h
      · exact absurd (hpre _ h) (by simp [Call.inTx])
      · exact absurd h.symm hc2
      · have := hcl _ h; simp at this
      · cases h
    · intro h
      have := h (c, false) (by simp) hc1 hc2
      simp at this
  · constructor
    · intro _ e he hchk hne
      obtain ⟨c, b1⟩ := e
      simp only [List.mem_cons, List.mem_append, mem_okCall, Prod.mk.injEq, List.not_mem_nil,
        or_false] at he
      rcases he with ⟨_, h⟩ | ⟨_, h⟩ | ⟨h, _⟩ | h | ⟨h, _⟩
      · exact h
      · exact h
      · exact absurd h hne
      · have := hcl _ h
        simp only at this
        subst this
        simp [Call.isChecked] at hchk
      · subst h
        simp [Call.isChecked] at hchk
    · intro _
      exact ⟨false, by simp⟩
  · constructor
    · intro _ e he hchk hne
      obtain ⟨c, b1⟩ := e
      simp only [List.mem_cons, List.mem_append, mem_okCall, Prod.mk.injEq, List.not_mem_nil,
        or_false] at he
      rcases he with ⟨_, h⟩ | ⟨_, h⟩ | ⟨h, _⟩ | h | ⟨h, _⟩
      · exact h
      · exact h
      · exact absurd h hne
      · have := hcl _ h
        simp only at this
        subst this
        simp [Call.isChecked] at hchk
      · subst h
        simp [Call.isChecked] at hchk
    · intro _
      exact ⟨true, by simp⟩

/-- Where an entry of a trace of the form `Begin`, statements, one more call,
deferred calls, `Rollback` can sit. -/
theorem mem_shape (pre : List Call) (x : Call × Bool) (cl : Trace) (b : Bool)
    (e : Call × Bool)
    (he : e ∈ (Call.begin, true) :: (pre.map okCall ++ x :: (cl ++ [(Call.rollback, b)]))) :
    e = (.begin, true) ∨ (e.1 ∈ pre ∧ e.2 = true) ∨ e = x ∨ e ∈ cl ∨ e = (.rollback, b) := by
  obtain ⟨c, b1⟩ := e
  simp only [List.mem_cons, List.mem_append, mem_okCall, List.not_mem_nil, or_false] at he
  exact he

theorem getLast_shape (front : Trace) (x : Call × Bool) (cl : Trace) (b : Bool) :
    ((Call.begin, true) :: (front ++ x :: (cl ++ [(Call.rollback, b)]))).getLast?
      = some (.rollback, b) := by
  have : (Call.begin, true) :: (front ++ x :: (cl ++ [(Call.rollback, b)]))
      = ((Call.begin, true) :: (front ++ x :: cl)) ++ [(Call.rollback, b)] := by simp
  rw [this, List.getLast?_append]
  rfl

theorem shape_ok_iff (stmts : List Call) (r : Res Unit) (tr : Trace)
    (hs : TxShape stmts r tr) (hin : ∀ c ∈ stmts, c.inTx = true) :
    r = .ok () ↔ (Call.commit, true) ∈ tr := by
  rcases hs with ⟨hr, htr⟩ | ⟨hr, pre, c, post, cl, b, hst, hcl, htr⟩ | ⟨hr, cl, b, hcl, htr⟩ |
    ⟨hr, cl, b, hcl, htr⟩ <;> subst htr <;> subst hr
  · simp
  · have hpre : ∀ d ∈ pre, d.inTx = true := fun d hd => hin d (by simp [hst, hd])
    have hc : c.inTx = true := hin c (by simp [hst])
    constructor
    · intro h; cases h
    · intro h
      rcases mem_shape pre _ cl b _ h with h | ⟨h, _⟩ | h | h | h
      · cases h
      · exact absurd (hpre _ h) (by simp [Call.inTx])
      · cases h
      · have := hcl _ h; simp at this
      · cases h
  · constructor
    · intro h; cases h
    · intro h
      rcases mem_shape stmts _ cl b _ h with h | ⟨h, _⟩ | h | h | h
      · cases h
      · exact absurd (hin _ h) (by simp [Call.inTx])
      · cases h
      · have := hcl _ h; simp at this
      · cases h
  · simp

theorem shape_fail (stmts : List Call) (r : Res Unit) (tr : Trace)
    (hs : TxShape stmts r tr) (hin : ∀ c ∈ stmts, c.inTx = true) (hr : r ≠ .ok ()) :
    ((Call.begin, true) ∈ tr → ∃ b, tr.getLast? = some (.rollback, b)) ∧
    ((Call.begin, false) ∈ tr → tr = [(.begin, false)]) ∧
    (∀ b, (Call.commit, b) ∈ tr → b = false) := by
  rcases hs with ⟨_, htr⟩ | ⟨_, pre, c, post, cl, b, hst, hcl, htr⟩ | ⟨_, cl, b, hcl, htr⟩ |
    ⟨hok, _⟩
  · subst htr
    refine ⟨by simp, fun _ => rfl, ?_⟩
    intro b h; simp at h
  · subst htr
    have hpre : ∀ d ∈ pre, d.inTx = true := fun d hd => hin d (by simp [hst, hd])
    have hc : c.inTx = true := hin c (by simp [hst])
    refine ⟨fun _ => ⟨b, getLast_shape _ _ _ _⟩, ?_, ?_⟩
    · intro h
      rcases mem_shape pre _ cl b _ h with h | ⟨h, _⟩ | h | h | h
      · cases h
      · exact absurd (hpre _ h) (by simp [Call.inTx])
      · simp only [Prod.mk.injEq] at h
        rw [← h.1] at hc
        simp [Call.inTx] at hc
      · have := hcl _ h; simp at this
      · cases h
    · intro b1 h
      rcases mem_shape pre _ cl b _ h with h | ⟨h, _⟩ | h | h | h
      · cases h
      · exact absurd (hpre _ h) (by simp [Call.inTx])
      · simp only [Prod.mk.injEq] at h
        rw [← h.1] at hc
        simp [Call.inTx] at hc
      · have := hcl _ h; simp at this
      · cases h
  · subst htr
    refine ⟨fun _ => ⟨b, getLast_shape _ _ _ _⟩, ?_, ?_⟩
    · intro h
      rcases mem_shape stmts _ cl b _ h with h | ⟨h, _⟩ | h | h | h
      · cases h
      · exact absurd (hin _ h) (by simp [Call.inTx])
      · cases h
      · have := hcl _ h; simp at this
      · cases h
    · intro b1 h
      rcases mem_shape stmts _ cl b _ h with h | ⟨h, _⟩ | h | h | h
      · cases h
      · exact absurd (hin _ h) (by simp [Call.inTx])
      · simp only [Prod.mk.injEq] at h
        exact h.2
      · have := hcl _ h; simp at this
      · cases h
  · exact absurd hok hr

/-- The statements of a run without error of a text-inlined update strategy. -/
theorem execsOf_textN (s : Strategy) (hs : s = .updateTextN ∨ s = .updateTransactTextN)
    (rids : List Int) (portion : Int) (fails : Nat → Bool)
    (hok : (s.code rids portion ⟨fails, []⟩).1 = .ok ()) :
    execsOf (s.code rids portion ⟨fails, []⟩).2.trace
      = (textGroups rids portion).map Stmt.updateIn := by
  rw [execsOf_ok s rids portion fails hok]
  rcases hs with rfl | rfl <;> rfl

theorem textGroups_count (rids : List Int) (portion : Int) (hp : 1 ≤ portion) :
    ((textGroups rids portion).length : Int) = ⌈(rids.length : ℚ) / (portion : ℚ)⌉ := by
  have hn : ((groupSize portion : Nat) : ℚ) = (portion : ℚ) := by
    have : ((groupSize portion : Nat) : Int) = portion := by unfold groupSize; omega
    exact_mod_cast congrArg (Int.cast : Int → ℚ) this
  rw [textGroups_length, ← hn,
    ceil_div_eq rids.length (groupSize portion) (groupSize_pos portion)]

theorem strategy_no_crash (s : Strategy) (rids : List Int) (portion : Int)
    (fails : Nat → Bool) :
    (s.code rids portion ⟨fails, []⟩).1 ≠ .indexPanic ∧
    (s.code rids portion ⟨fails, []⟩).1 ≠ .outOfFuel := by
  rcases strategy_res s rids portion fails with h | h <;> rw [h] <;> simp

theorem groupLists_ok (s : Strategy)
    (hs : s = .updateTextN ∨ s = .updateTransactTextN ∨ s = .updateTempN)
    (rids : List Int) (portion : Int) (fails : Nat → Bool)
    (hok : (s.code rids portion ⟨fails, []⟩).1 = .ok ()) :
    groupLists s (s.code rids portion ⟨fails, []⟩).2.trace = textGroups rids portion := by
  rcases hs with rfl | rfl | rfl
  · exact updateLists_textN .updateTextN (Or.inl rfl) rids portion fails hok
  · exact updateLists_textN .updateTransactTextN (Or.inr rfl) rids portion fails hok
  · exact insertLists_tempN rids portion fails hok

/-- C1 fails as stated: `updateTextN` on the workload `[1, 1]` with `portion = 2`
runs without error and sends the single statement `... WHERE rid IN (1,1)`, which
adds 1 to row 1 once, although 1 occurs twice in the workload. -/
theorem C1_grouped_duplicates_counterexample :
    (Strategy.updateTextN.code [1, 1] 2 ⟨fun _ => false, []⟩).1 = .ok () ∧
    (visibleAfter (Strategy.updateTextN.code [1, 1] 2) (fun _ => false) sampleTable).map Row.mark
      = [0, 1, 0] ∧
    visibleAfter (Strategy.updateTextN.code [1, 1] 2) (fun _ => false) sampleTable
      ≠ addMarks (fun r => (([1, 1] : List Int).count r : Int)) sampleTable := by
  decide

/-- C1 as amended: when a strategy of the catalogue runs without error (whatever
the failure oracle), the mark of every row grows by the number of issued update
statements that select it (`marksAdded`): the number of occurrences of its rid
for the per-row strategies, the number of statement groups that contain its rid
for the grouped strategies, and one if its rid occurs at all for the staging
table strategy.  When the workload has no repeated identifier (and its length is
a multiple of the group size for the fixed-arity strategies) this is the number
of occurrences for every strategy. -/
theorem C1_marks_added (s : Strategy) (rids : List Int) (portion : Int) (fails : Nat → Bool)
    (t : Table) (hok : (s.code rids portion ⟨fails, []⟩).1 = .ok ()) :
    visibleAfter (s.code rids portion) fails t = addMarks (marksAdded s rids portion) t ∧
    (s.perRow = true →
      visibleAfter (s.code rids portion) fails t = addMarks (fun r => (rids.count r : Int)) t) ∧
    (rids.Nodup → (s = .updateTransactPrep4 → 4 ∣ rids.length) →
      (s = .updateTransactPrep8 → 8 ∣ rids.length) →
      visibleAfter (s.code rids portion) fails t = addMarks (fun r => (rids.count r : Int)) t) := by
  have h := strategy_effect s rids portion fails t hok
  refine ⟨h, ?_, ?_⟩
  · intro hp
    rw [h]
    cases s <;> first | rfl | simp [Strategy.perRow] at hp
  · intro hn h4 h8
    rw [h]
    congr 1
    funext r
    exact marksAdded_nodup s rids portion hn h4 h8 r

/-- C1, instance: `updateTempN` on `[0, 2]` with `portion = 8`. -/
theorem C1_marks_added_witness :
    (Strategy.updateTempN.code [0, 2] 8 ⟨fun _ => false, []⟩).1 = .ok () ∧
    (visibleAfter (Strategy.updateTempN.code [0, 2] 8) (fun _ => false) sampleTable
        = addMarks (marksAdded .updateTempN [0, 2] 8) sampleTable ∧
      (Strategy.updateTempN.perRow = true →
        visibleAfter (Strategy.updateTempN.code [0, 2] 8) (fun _ => false) sampleTable
          = addMarks (fun r => (([0, 2] : List Int).count r : Int)) sampleTable) ∧
      (([0, 2] : List Int).Nodup →
        (Strategy.updateTempN = .updateTransactPrep4 → 4 ∣ ([0, 2] : List Int).length) →
        (Strategy.updateTempN = .updateTransactPrep8 → 8 ∣ ([0, 2] : List Int).length) →
        visibleAfter (Strategy.updateTempN.code [0, 2] 8) (fun _ => false) sampleTable
          = addMarks (fun r => (([0, 2] : List Int).count r : Int)) sampleTable)) :=
  ⟨by decide, C1_marks_added .updateTempN [0, 2] 8 (fun _ => false) sampleTable (by decide)⟩

/-- C2 fails as stated: on the workload `[1, 1]` both strategies run without
error, `updateTempN` adds 1 to row 1 (the join update touches a row once) and
`updateTransactPrep` adds 2. -/
theorem C2_duplicates_counterexample :
    (updateTempN [1, 1] 8 ⟨fun _ => false, []⟩).1 = .ok () ∧
    (updateTransactPrep [1, 1] 8 ⟨fun _ => false, []⟩).1 = .ok () ∧
    (visibleAfter (updateTempN [1, 1] 8) (fun _ => false) sampleTable).map Row.mark = [0, 1, 0] ∧
    (visibleAfter (updateTransactPrep [1, 1] 8) (fun _ => false) sampleTable).map Row.mark
      = [0, 2, 0] := by
  decide

/-- C2 as amended: for a workload without repeated identifier and every
`portion`, the table left by a run of `updateTempN` that ended without error is
equal, row for row, to the table left by such a run of `updateTransactPrep` on
the same initial table. -/
theorem C2_temp_equals_per_row (rids : List Int) (portion : Int) (f1 f2 : Nat → Bool)
    (t : Table) (hn : rids.Nodup)
    (h1 : (updateTempN rids portion ⟨f1, []⟩).1 = .ok ())
    (h2 : (updateTransactPrep rids portion ⟨f2, []⟩).1 = .ok ()) :
    visibleAfter (updateTempN rids portion) f1 t
      = visibleAfter (updateTransactPrep rids portion) f2 t := by
  have e1 := strategy_effect .updateTempN rids portion f1 t h1
  have e2 := strategy_effect .updateTransactPrep rids portion f2 t h2
  have m1 : marksAdded .updateTempN rids portion = marksAdded .updateTransactPrep rids portion := by
    funext r
    rw [marksAdded_nodup .updateTempN rids portion hn (by simp) (by simp) r]
    rfl
  simp only [Strategy.code] at e1 e2
  rw [e1, e2, m1]

/-- C2, instance: the workload `[0, 2]` with `portion = 1`. -/
theorem C2_temp_equals_per_row_witness :
    ([0, 2] : List Int).Nodup ∧
    (updateTempN [0, 2] 1 ⟨fun _ => false, []⟩).1 = .ok () ∧
    (updateTransactPrep [0, 2] 1 ⟨fun _ => false, []⟩).1 = .ok () ∧
    visibleAfter (updateTempN [0, 2] 1) (fun _ => false) sampleTable
      = visibleAfter (updateTransactPrep [0, 2] 1) (fun _ => false) sampleTable :=
  ⟨by decide, by decide, by decide,
    C2_temp_equals_per_row [0, 2] 1 (fun _ => false) (fun _ => false) sampleTable
      (by decide) (by decide) (by decide)⟩

/-- C3: for every workload of length `W` and every `portion >= 1`, `updateTextN`
and `updateTransactTextN` never leave by an index panic or for lack of fuel,
whatever fails; when no call fails they return normally having executed exactly
`ceil(W / portion)` statements; and every run that ends without error has
executed exactly `ceil(W / portion)` statements, all of them `IN (...)` updates. -/
theorem C3_statement_count (s : Strategy) (hs : s = .updateTextN ∨ s = .updateTransactTextN)
    (rids : List Int) (portion : Int) (hp : 1 ≤ portion) :
    (∀ fails : Nat → Bool, (s.code rids portion ⟨fails, []⟩).1 ≠ .indexPanic ∧
      (s.code rids portion ⟨fails, []⟩).1 ≠ .outOfFuel) ∧
    (s.code rids portion ⟨fun _ => false, []⟩).1 = .ok () ∧
    ((execsOf (s.code rids portion ⟨fun _ => false, []⟩).2.trace).length : Int)
        = ⌈(rids.length : ℚ) / (portion : ℚ)⌉ ∧
    (∀ fails : Nat → Bool, (s.code rids portion ⟨fails, []⟩).1 = .ok () →
      ((execsOf (s.code rids portion ⟨fails, []⟩).2.trace).length : Int)
          = ⌈(rids.length : ℚ) / (portion : ℚ)⌉ ∧
      execsOf (s.code rids portion ⟨fails, []⟩).2.trace
          = (updateLists (s.code rids portion ⟨fails, []⟩).2.trace).map Stmt.updateIn) := by
  have hgen : ∀ fails : Nat → Bool, (s.code rids portion ⟨fails, []⟩).1 = .ok () →
      ((execsOf (s.code rids portion ⟨fails, []⟩).2.trace).length : Int)
          = ⌈(rids.length : ℚ) / (portion : ℚ)⌉ ∧
      execsOf (s.code rids portion ⟨fails, []⟩).2.trace
          = (updateLists (s.code rids portion ⟨fails, []⟩).2.trace).map Stmt.updateIn := by
    intro fails hok
    have hex := execsOf_textN s hs rids portion fails hok
    refine ⟨?_, ?_⟩
    · rw [hex, List.length_map, textGroups_count rids portion hp]
    · rw [updateLists_textN s hs rids portion fails hok, hex]
  exact ⟨strategy_no_crash s rids portion, quiet_ok s rids portion,
    (hgen _ (quiet_ok s rids portion)).1, hgen⟩

/-- C3, instances: five identifiers in groups of two give three statements, for
`updateTextN` and for `updateTransactTextN`. -/
theorem C3_statement_count_witness :
    (1 : Int) ≤ 2 ∧
    ((updateTextN [1, 2, 3, 4, 5] 2 ⟨fun _ => false, []⟩).1 = .ok () ∧
      execsOf (updateTextN [1, 2, 3, 4, 5] 2 ⟨fun _ => false, []⟩).2.trace
        = [.updateIn [1, 2], .updateIn [3, 4], .updateIn [5]] ∧
      ((execsOf (Strategy.updateTextN.code [1, 2, 3, 4, 5] 2
          ⟨fun _ => false, []⟩).2.trace).length : Int)
        = ⌈((([1, 2, 3, 4, 5] : List Int).length : Nat) : ℚ) / ((2 : Int) : ℚ)⌉) ∧
    ((updateTransactTextN [1, 2, 3, 4, 5] 2 ⟨fun _ => false, []⟩).1 = .ok () ∧
      execsOf (updateTransactTextN [1, 2, 3, 4, 5] 2 ⟨fun _ => false, []⟩).2.trace
        = [.updateIn [1, 2], .updateIn [3, 4], .updateIn [5]] ∧
      ((execsOf (Strategy.updateTransactTextN.code [1, 2, 3, 4, 5] 2
          ⟨fun _ => false, []⟩).2.trace).length : Int)
        = ⌈((([1, 2, 3, 4, 5] : List Int).length : Nat) : ℚ) / ((2 : Int) : ℚ)⌉) :=
  ⟨by decide,
    ⟨(C3_statement_count .updateTextN (Or.inl rfl) [1, 2, 3, 4, 5] 2 (by decide)).2.1,
      by decide,
      (C3_statement_count .updateTextN (Or.inl rfl) [1, 2, 3, 4, 5] 2 (by decide)).2.2.1⟩,
    ⟨(C3_statement_count .updateTransactTextN (Or.inr rfl) [1, 2, 3, 4, 5] 2
        (by decide)).2.1,
      by decide,
      (C3_statement_count .updateTransactTextN (Or.inr rfl) [1, 2, 3, 4, 5] 2
        (by decide)).2.2.1⟩⟩

/-- C4: `updateTransactPrep4` (`g = 4`) and `updateTransactPrep8` (`g = 8`) never
index outside the workload, whatever fails; they return normally when no call
fails; and a run without error executes the prepared statement exactly
`floor(W / g)` times, the k-th execution binding `g` arguments, the j-th of
which is the identifier at position `g*k + j`, a position below `W - W mod g`:
the last `W mod g` positions are bound by no execution. -/
theorem C4_fixed_arity_executions (s : Strategy) (g : Nat)
    (hs : (s = .updateTransactPrep4 ∧ g = 4) ∨ (s = .updateTransactPrep8 ∧ g = 8))
    (rids : List Int) (portion : Int) :
    (∀ fails : Nat → Bool, (s.code rids portion ⟨fails, []⟩).1 ≠ .indexPanic ∧
      (s.code rids portion ⟨fails, []⟩).1 ≠ .outOfFuel) ∧
    (s.code rids portion ⟨fun _ => false, []⟩).1 = .ok () ∧
    (∀ fails : Nat → Bool, (s.code rids portion ⟨fails, []⟩).1 = .ok () →
      (execsOf (s.code rids portion ⟨fails, []⟩).2.trace).length = rids.length / g ∧
      ∀ k, k < rids.length / g →
        ∃ args, (execsOf (s.code rids portion ⟨fails, []⟩).2.trace)[k]? = some (.updateIn args) ∧
          args.length = g ∧
          ∀ j, j < g → g * k + j < rids.length - rids.length % g ∧
            args[j]? = rids[g * k + j]?) := by
  refine ⟨?_, quiet_ok s rids portion, ?_⟩
  · intro fails
    rcases strategy_res s rids portion fails with h | h <;> rw [h] <;> simp
  · intro fails hok
    rw [execsOf_fixed s g hs rids portion fails hok]
    refine ⟨by rw [List.length_map, fixedGroups_length], ?_⟩
    intro k hk
    have hb := div_mul_bound rids.length g k hk
    refine ⟨(rids.drop (k * g)).take g, ?_, ?_, ?_⟩
    · rw [List.getElem?_map, fixedGroups_getElem? g rids k hk]
      rfl
    · rw [List.length_take, List.length_drop, Nat.mul_comm]
      omega
    · intro j hj
      refine ⟨by omega, ?_⟩
      rw [List.getElem?_take_of_lt hj, List.getElem?_drop, Nat.mul_comm]

/-- C4, instance: `updateTransactPrep4` on nine identifiers. -/
theorem C4_fixed_arity_executions_witness :
    execsOf (updateTransactPrep4 [1, 2, 3, 4, 5, 6, 7, 8, 9] 0 ⟨fun _ => false, []⟩).2.trace
      = [.updateIn [1, 2, 3, 4], .updateIn [5, 6, 7, 8]] ∧
    (Strategy.updateTransactPrep4.code [1, 2, 3, 4, 5, 6, 7, 8, 9] 0 ⟨fun _ => false, []⟩).1
      = .ok () :=
  ⟨by decide,
    (C4_fixed_arity_executions .updateTransactPrep4 4 (Or.inl ⟨rfl, rfl⟩)
      [1, 2, 3, 4, 5, 6, 7, 8, 9] 0).2.1⟩

/-- C5: for every workload and every `portion >= 1`, `updateTextN`,
`updateTransactTextN` and `updateTempN` never leave by an index panic or for
lack of fuel, whatever fails, and return normally when no call fails.  In every
run that ends without error, so in the run where no call fails, the identifier
lists `L` of the successive statements of the grouping loop (`groupLists`: the
`IN` lists of the updates, the `VALUES` lists of the inserts of `updateTempN`),
concatenated, are the workload; every list but the last has exactly `portion`
identifiers and the last has between 1 and `portion`. -/
theorem C5_groups_cover_workload (s : Strategy)
    (hs : s = .updateTextN ∨ s = .updateTransactTextN ∨ s = .updateTempN)
    (rids : List Int) (portion : Int) (hp : 1 ≤ portion) :
    (∀ fails : Nat → Bool, (s.code rids portion ⟨fails, []⟩).1 ≠ .indexPanic ∧
      (s.code rids portion ⟨fails, []⟩).1 ≠ .outOfFuel) ∧
    (s.code rids portion ⟨fun _ => false, []⟩).1 = .ok () ∧
    (groupLists s (s.code rids portion ⟨fun _ => false, []⟩).2.trace).flatten = rids ∧
    (∀ fails : Nat → Bool, (s.code rids portion ⟨fails, []⟩).1 = .ok () →
      (groupLists s (s.code rids portion ⟨fails, []⟩).2.trace).flatten = rids ∧
      (∀ k, k + 1 < (groupLists s (s.code rids portion ⟨fails, []⟩).2.trace).length →
        ∃ q, (groupLists s (s.code rids portion ⟨fails, []⟩).2.trace)[k]? = some q ∧
          (q.length : Int) = portion) ∧
      (∀ q, (groupLists s (s.code rids portion ⟨fails, []⟩).2.trace).getLast? = some q →
        1 ≤ q.length ∧ (q.length : Int) ≤ portion)) := by
  have hg : ((groupSize portion : Nat) : Int) = portion := by unfold groupSize; omega
  have hgen : ∀ fails : Nat → Bool, (s.code rids portion ⟨fails, []⟩).1 = .ok () →
      (groupLists s (s.code rids portion ⟨fails, []⟩).2.trace).flatten = rids ∧
      (∀ k, k + 1 < (groupLists s (s.code rids portion ⟨fails, []⟩).2.trace).length →
        ∃ q, (groupLists s (s.code rids portion ⟨fails, []⟩).2.trace)[k]? = some q ∧
          (q.length : Int) = portion) ∧
      (∀ q, (groupLists s (s.code rids portion ⟨fails, []⟩).2.trace).getLast? = some q →
        1 ≤ q.length ∧ (q.length : Int) ≤ portion) := by
    intro fails hok
    rw [groupLists_ok s hs rids portion fails hok]
    refine ⟨textGroups_flatten rids portion, ?_, ?_⟩
    · intro k hk
      refine ⟨_, textGroups_getElem? rids portion k (by omega), ?_⟩
      rw [textGroups_inner_length rids portion k hk, hg]
    · intro q hq
      have := textGroups_last_length rids portion q hq
      omega
  exact ⟨strategy_no_crash s rids portion, quiet_ok s rids portion,
    (hgen _ (quiet_ok s rids portion)).1, hgen⟩

/-- C5, instances: five identifiers with `portion = 2`, for each of the three
strategies: the lists are `[1, 2]`, `[3, 4]`, `[5]`. -/
theorem C5_groups_cover_workload_witness :
    (1 : Int) ≤ 2 ∧
    (groupLists .updateTextN (updateTextN [1, 2, 3, 4, 5] 2 ⟨fun _ => false, []⟩).2.trace
        = [[1, 2], [3, 4], [5]] ∧
      (Strategy.updateTextN.code [1, 2, 3, 4, 5] 2 ⟨fun _ => false, []⟩).1 = .ok ()) ∧
    (groupLists .updateTransactTextN
          (updateTransactTextN [1, 2, 3, 4, 5] 2 ⟨fun _ => false, []⟩).2.trace
        = [[1, 2], [3, 4], [5]] ∧
      (Strategy.updateTransactTextN.code [1, 2, 3, 4, 5] 2 ⟨fun _ => false, []⟩).1 = .ok ()) ∧
    (groupLists .updateTempN (updateTempN [1, 2, 3, 4, 5] 2 ⟨fun _ => false, []⟩).2.trace
        = [[1, 2], [3, 4], [5]] ∧
      (Strategy.updateTempN.code [1, 2, 3, 4, 5] 2 ⟨fun _ => false, []⟩).1 = .ok ()) :=
  ⟨by decide,
    ⟨by decide,
      (C5_groups_cover_workload .updateTextN (Or.inl rfl) [1, 2, 3, 4, 5] 2 (by decide)).2.1⟩,
    ⟨by decide,
      (C5_groups_cover_workload .updateTransactTextN (Or.inr (Or.inl rfl)) [1, 2, 3, 4, 5] 2
        (by decide)).2.1⟩,
    ⟨by decide,
      (C5_groups_cover_workload .updateTempN (Or.inr (Or.inr rfl)) [1, 2, 3, 4, 5] 2
        (by decide)).2.1⟩⟩

/-- C6 fails as stated: on the empty workload `updateTempN` still executes two
statements, `CREATE TEMP TABLE` and the join update. -/
theorem C6_temp_table_counterexample :
    (updateTempN [] 8 ⟨fun _ => false, []⟩).1 = .ok () ∧
    execsOf (updateTempN [] 8 ⟨fun _ => false, []⟩).2.trace = [.createTmp, .updateFromTmp] ∧
    (execsOf (updateTempN [] 8 ⟨fun _ => false, []⟩).2.trace).length ≠ 0 := by
  decide

/-- C6 as amended: on the empty workload, for every `portion`, every strategy
returns normally when no call fails.  A run without error of a strategy other
than `updateTempN` has executed no statement (`updateStupid`, `updateClassic1`
and `updateTextN` have made no call at all; the others have made their `Begin`,
`Prepare`, `Commit` and deferred calls only); such a run of `updateTempN` has
executed its `CREATE TEMP TABLE` and its join update and nothing else; and in
every case every row of the table is as before. -/
theorem C6_empty_workload (s : Strategy) (portion : Int) :
    (s.code [] portion ⟨fun _ => false, []⟩).1 = .ok () ∧
    (∀ fails : Nat → Bool, (s.code [] portion ⟨fails, []⟩).1 = .ok () →
      (s ≠ .updateTempN → execsOf (s.code [] portion ⟨fails, []⟩).2.trace = []) ∧
      (s = .updateStupid ∨ s = .updateClassic1 ∨ s = .updateTextN →
        (s.code [] portion ⟨fails, []⟩).2.trace = []) ∧
      (s = .updateTempN →
        execsOf (s.code [] portion ⟨fails, []⟩).2.trace = [.createTmp, .updateFromTmp]) ∧
      ∀ t : Table, visibleAfter (s.code [] portion) fails t = t) := by
  refine ⟨quiet_ok s [] portion, ?_⟩
  intro fails hok
  rw [execsOf_ok s [] portion fails hok]
  refine ⟨?_, ?_, ?_, ?_⟩
  · intro hne
    cases s <;> simp [stmtsOf, textGroups_nil, fixedGroups_nil] at hne ⊢
  · rintro (rfl | rfl | rfl) <;> rfl
  · rintro rfl
    simp [stmtsOf, textGroups_nil]
  · intro t
    rw [strategy_effect s [] portion fails t hok]
    have : marksAdded s [] portion = fun _ => 0 := by
      funext r; exact marksAdded_nil s portion r
    rw [this, addMarks_zero]

/-- C6, instance: `updateTransactPrep8` on the empty workload. -/
theorem C6_empty_workload_witness :
    (Strategy.updateTransactPrep8.code [] 0 ⟨fun _ => false, []⟩).1 = .ok () ∧
    execsOf (Strategy.updateTransactPrep8.code [] 0 ⟨fun _ => false, []⟩).2.trace = [] ∧
    visibleAfter (Strategy.updateTransactPrep8.code [] 0) (fun _ => false) sampleTable
      = sampleTable :=
  ⟨by decide,
    ((C6_empty_workload .updateTransactPrep8 0).2 (fun _ => false) (by decide)).1 (by decide),
    ((C6_empty_workload .updateTransactPrep8 0).2 (fun _ => false) (by decide)).2.2.2
      sampleTable⟩

/-- When the first measured mean is not zero, `dur1` is assigned exactly once,
by the first call of `bench`, and holds the first mean after the first call and
after every later one; every call reports its own mean and the ratio
(first mean) / (own mean), which is 1 for the first call. -/
theorem bench_baseline_of_nonzero_first_mean (d0 : List Nat) (rest : List (List Nat))
    (h0 : meanMs d0 ≠ 0) :
    (bench d0 BenchState.init).1 = ⟨meanMs d0, 1⟩ ∧
    (benchAll (d0 :: rest) BenchState.init).1 = ⟨meanMs d0, 1⟩ ∧
    (benchAll (d0 :: rest) BenchState.init).2
      = (d0 :: rest).map (fun d => ⟨meanMs d, fdiv (meanMs d0) (meanMs d)⟩) ∧
    (bench d0 BenchState.init).2 = ⟨meanMs d0, some 1⟩ := by
  have hk : fdiv (meanMs d0) (meanMs d0) = some 1 := by
    simp [fdiv, h0]
  have hstep : bench d0 BenchState.init = (⟨meanMs d0, 1⟩, ⟨meanMs d0, some 1⟩) := by
    simp [bench, BenchState.init, hk]
  refine ⟨by rw [hstep], ?_, ?_, by rw [hstep]⟩
  · simp only [benchAll, hstep, benchAll_fixed _ _ h0]
  · simp only [benchAll, hstep, benchAll_fixed _ _ h0, List.map_cons, hk]

/-- C9 fails as stated on two failing paths of `updateTransactTextN [1] 1`.
When `Begin` itself fails (call 0) the strategy panics before `defer
tx.Rollback()` is reached: nothing but the failed `Begin` is issued, so no
`Rollback`.  When `Commit` fails (call 2) the path is a failing one on which
`Commit` has been issued; the deferred `Rollback` that follows a `Commit` reports
an error too (call 3), which the strategy ignores. -/
theorem C9_begin_or_commit_failure_counterexample :
    (updateTransactTextN [1] 1 ⟨fun n => n == 0, []⟩).1 = .logPanic ∧
    (updateTransactTextN [1] 1 ⟨fun n => n == 0, []⟩).2.trace = [(.begin, false)] ∧
    (∀ b, (Call.rollback, b) ∉ (updateTransactTextN [1] 1 ⟨fun n => n == 0, []⟩).2.trace) ∧
    (updateTransactTextN [1] 1 ⟨fun n => decide (2 ≤ n), []⟩).1 = .logPanic ∧
    (updateTransactTextN [1] 1 ⟨fun n => decide (2 ≤ n), []⟩).2.trace
      = [(.begin, true), (.exec .tx (.updateIn [1]), true), (.commit, false),
          (.rollback, false)] := by
  decide

/-- C9 as amended: for every strategy that begins a transaction, every
workload, every `portion` and every choice of failing calls, with `tr` the
calls issued and `r` the way the strategy ends:
the trace follows the protocol of `Phase.step` (one `Begin`, first; `Prepare`
and `Exec` only after a successful `Begin` and before `Commit` or `Rollback`);
`Commit` is issued if and only if every checked call other than `Commit`
succeeded; the strategy returns normally if and only if `Commit` succeeded;
and when it does not return normally it ends by `log.Panic`, the deferred
`Rollback` is the last call issued provided `Begin` had succeeded, a failed
`Begin` is the only call issued, a `Commit` that was issued is the call that
failed, and the visible table is the table before the run. -/
theorem C9_transaction_discipline (s : Strategy) (hs : s.usesTx = true) (rids : List Int)
    (portion : Int) (fails : Nat → Bool) (t : Table) :
    Phase.scan .idle (s.code rids portion ⟨fails, []⟩).2.trace = some .over ∧
    (∃ b, (s.code rids portion ⟨fails, []⟩).2.trace.head? = some (.begin, b)) ∧
    ((∃ b, (Call.commit, b) ∈ (s.code rids portion ⟨fails, []⟩).2.trace) ↔
      ∀ e ∈ (s.code rids portion ⟨fails, []⟩).2.trace,
        e.1.isChecked = true → e.1 ≠ .commit → e.2 = true) ∧
    ((s.code rids portion ⟨fails, []⟩).1 = .ok () ↔
      (Call.commit, true) ∈ (s.code rids portion ⟨fails, []⟩).2.trace) ∧
    ((s.code rids portion ⟨fails, []⟩).1 ≠ .ok () →
      (s.code rids portion ⟨fails, []⟩).1 = .logPanic ∧
      ((Call.begin, true) ∈ (s.code rids portion ⟨fails, []⟩).2.trace →
        ∃ b, (s.code rids portion ⟨fails, []⟩).2.trace.getLast? = some (.rollback, b)) ∧
      ((Call.begin, false) ∈ (s.code rids portion ⟨fails, []⟩).2.trace →
        (s.code rids portion ⟨fails, []⟩).2.trace = [(.begin, false)]) ∧
      (∀ b, (Call.commit, b) ∈ (s.code rids portion ⟨fails, []⟩).2.trace → b = false) ∧
      visibleAfter (s.code rids portion) fails t = t) := by
  have hsh := strategy_txShape s hs rids portion fails
  have hin := txStmts_inTx s rids portion
  refine ⟨shape_scan _ _ _ hsh hin, shape_head _ _ _ hsh, shape_commit_iff _ _ _ hsh hin,
    shape_ok_iff _ _ _ hsh hin, ?_⟩
  intro hr
  obtain ⟨h1, h2, h3⟩ := shape_fail _ _ _ hsh hin hr
  refine ⟨?_, h1, h2, h3, txShape_fail_main _ _ _ t hsh hin hr⟩
  rcases strategy_res s rids portion fails with h | h
  · exact absurd h hr
  · exact h

/-- C9, instance: `updateTempN` on `[0, 2]` when the join update (call 3)
fails: the run panics and the table is as before. -/
theorem C9_transaction_discipline_witness :
    Strategy.updateTempN.usesTx = true ∧
    (Strategy.updateTempN.code [0, 2] 8 ⟨fun n => n == 3, []⟩).1 ≠ .ok () ∧
    visibleAfter (Strategy.updateTempN.code [0, 2] 8) (fun n => n == 3) sampleTable
      = sampleTable :=
  ⟨by decide, by decide,
    ((C9_transaction_discipline .updateTempN (by decide) [0, 2] 8 (fun n => n == 3)
      sampleTable).2.2.2.2 (by decide)).2.2.2.2⟩

/-- C10: for every workload and every integer `portion` (zero and negative
included): one pass of the outer loop body ends, at an index strictly above the
index it started from and not above `len(rids)`; the loop ends within
`len(rids)` passes (more fuel changes nothing, and the only ways out are the
normal end and `log.Panic`); `updateTextN`, `updateTransactTextN` and
`updateTempN` end, normally or by `log.Panic`, whatever fails, and normally when
no call fails; and for `portion <= 1` every run that ends without error, so the
run where no call fails, has issued exactly `len(rids)` statements from the
loop, each carrying exactly one identifier, in workload order. -/
theorem C10_grouping_loop_terminates (rids : List Int) (portion : Int) :
    (∀ i, i < rids.length →
      ∃ i1 q, buildGroup rids portion i = .ok (i1, q) ∧ i < i1 ∧ i1 ≤ rids.length) ∧
    (∀ (mk : List Int → Call) (w : World) (fuel : Nat), rids.length ≤ fuel →
      groupLoop mk rids portion fuel 0 w = groupLoop mk rids portion rids.length 0 w ∧
      ((groupLoop mk rids portion rids.length 0 w).1 = .ok () ∨
        (groupLoop mk rids portion rids.length 0 w).1 = .logPanic)) ∧
    (∀ s : Strategy, s = .updateTextN ∨ s = .updateTransactTextN ∨ s = .updateTempN →
      (∀ fails : Nat → Bool, (s.code rids portion ⟨fails, []⟩).1 = .ok () ∨
        (s.code rids portion ⟨fails, []⟩).1 = .logPanic) ∧
      (s.code rids portion ⟨fun _ => false, []⟩).1 = .ok ()) ∧
    (portion ≤ 1 →
      execsOf (updateTextN rids portion ⟨fun _ => false, []⟩).2.trace
        = rids.map (fun x => .updateIn [x]) ∧
      execsOf (updateTransactTextN rids portion ⟨fun _ => false, []⟩).2.trace
        = rids.map (fun x => .updateIn [x]) ∧
      execsOf (updateTempN rids portion ⟨fun _ => false, []⟩).2.trace
        = .createTmp :: (rids.map (fun x => .insertTmp [x]) ++ [.updateFromTmp]) ∧
      ∀ (s : Strategy) (fails : Nat → Bool),
        (s = .updateTextN ∨ s = .updateTransactTextN ∨ s = .updateTempN) →
        (s.code rids portion ⟨fails, []⟩).1 = .ok () →
        groupLists s (s.code rids portion ⟨fails, []⟩).2.trace = rids.map (fun x => [x]) ∧
        (groupLists s (s.code rids portion ⟨fails, []⟩).2.trace).length = rids.length) := by
  refine ⟨?_, ?_, ?_, ?_⟩
  · intro i hi
    have hg := groupSize_pos portion
    exact ⟨_, _, buildGroup_eq rids portion i hi, by omega, by omega⟩
  · intro mk w fuel hfuel
    refine ⟨?_, ?_⟩
    · rw [groupLoop_eq_issueAll mk rids portion fuel 0 w (by omega),
        groupLoop_eq_issueAll mk rids portion rids.length 0 w (by omega), List.drop_zero,
        chunks_fuel _ (groupSize_pos portion) rids fuel rids.length hfuel (le_refl _)]
    · rw [groupLoop_eq_issueAll mk rids portion rids.length 0 w (by omega)]
      exact issueAll_res _ _
  · intro s _
    exact ⟨fun fails => strategy_res s rids portion fails, quiet_ok s rids portion⟩
  · intro hp
    have hg := textGroups_small rids portion hp
    have e1 := execsOf_ok .updateTextN rids portion _ (quiet_ok .updateTextN rids portion)
    have e2 := execsOf_ok .updateTransactTextN rids portion _
      (quiet_ok .updateTransactTextN rids portion)
    have e3 := execsOf_ok .updateTempN rids portion _ (quiet_ok .updateTempN rids portion)
    simp only [Strategy.code, stmtsOf, hg, List.map_map] at e1 e2 e3
    refine ⟨e1, e2, e3, ?_⟩
    intro s fails hs hok
    rw [groupLists_ok s hs rids portion fails hok, hg, List.length_map]
    exact ⟨rfl, rfl⟩

/-- C10, instances: `portion = -3` on three identifiers gives three statements
of one identifier each, for each of the three strategies. -/
theorem C10_grouping_loop_terminates_witness :
    ((-3 : Int) ≤ 1) ∧
    execsOf (updateTextN [7, 8, 9] (-3) ⟨fun _ => false, []⟩).2.trace
      = ([7, 8, 9] : List Int).map (fun x => .updateIn [x]) ∧
    execsOf (updateTransactTextN [7, 8, 9] (-3) ⟨fun _ => false, []⟩).2.trace
      = ([7, 8, 9] : List Int).map (fun x => .updateIn [x]) ∧
    execsOf (updateTempN [7, 8, 9] (-3) ⟨fun _ => false, []⟩).2.trace
      = .createTmp :: (([7, 8, 9] : List Int).map (fun x => .insertTmp [x])
          ++ [.updateFromTmp]) ∧
    (Strategy.updateTempN.code [7, 8, 9] (-3) ⟨fun _ => false, []⟩).1 = .ok () :=
  ⟨by decide,
    ((C10_grouping_loop_terminates [7, 8, 9] (-3)).2.2.2 (by decide)).1,
    ((C10_grouping_loop_terminates [7, 8, 9] (-3)).2.2.2 (by decide)).2.1,
    ((C10_grouping_loop_terminates [7, 8, 9] (-3)).2.2.2 (by decide)).2.2.1,
    ((C10_grouping_loop_terminates [7, 8, 9] (-3)).2.2.1 .updateTempN
      (Or.inr (Or.inr rfl))).2⟩

end Pgsups
